import Mathlib

/-!
Verification of the 00bx-kiro-gateway streaming core (src/streaming.ts,
src/utils.ts): the AWS event-stream frame decoder, the event classifier,
the tool-call accumulator / finalizer, and the deduplicator.

The embedding mirrors the TypeScript source.  Platform primitives are
modelled explicitly:
* JSON values are a mutual inductive (`Json`); JSON numbers are modelled
  as integers (the payloads relevant to the claims carry no fractional
  numbers), and `JSON.parse` / `JSON.stringify` are modelled by
  `parseJson` / `stringify`.
* `Uint8Array` buffers are `List Nat` whose elements are byte values.
* JavaScript 32-bit signed reads (`<<` / `|` on byte values) are modelled
  by `asInt32` of the big-endian unsigned composition, and
  `Uint8Array.slice` (negative indices count from the end, with clamping)
  by `jsSlice`.
* JavaScript truthiness is `truthy`; `===` on freshly parsed values is
  `jsStrictEq` (two distinct objects or arrays are never `===`).
-/

namespace KiroGateway

/-! ## JSON value model -/

mutual

inductive Json where
  | null
  | jbool (b : Bool)
  | jnum (n : Int)
  | jstr (s : String)
  | jarr (elems : JsonArr)
  | jobj (members : JsonMems)
deriving DecidableEq, Repr

inductive JsonArr where
  | nil
  | cons (hd : Json) (tl : JsonArr)
deriving DecidableEq, Repr

inductive JsonMems where
  | nil
  | cons (k : String) (v : Json) (tl : JsonMems)
deriving DecidableEq, Repr

end

/-- Key membership, modelling the JavaScript `"k" in data` test. -/
def hasKey : JsonMems → String → Bool
  | .nil, _ => false
  | .cons k _ tl, key => k = key || hasKey tl key

/-- Field access, modelling `data.k` (`none` models `undefined`). -/
def memGet : JsonMems → String → Option Json
  | .nil, _ => none
  | .cons k v tl, key => if k = key then some v else memGet tl key

/-- Member insertion as performed while parsing a JSON object literal:
a duplicate key overwrites the value but keeps the original position,
as JavaScript object construction does. -/
def memsInsert : JsonMems → String → Json → JsonMems
  | .nil, key, v => .cons key v .nil
  | .cons k w tl, key, v =>
    if k = key then .cons k v tl else .cons k w (memsInsert tl key v)

/-- JavaScript truthiness of a JSON value.  `null`, `false`, `0` and the
empty string are falsy; every object and array (even empty) is truthy. -/
def truthy : Json → Bool
  | .null => false
  | .jbool b => b
  | .jnum n => n != 0
  | .jstr s => !s.isEmpty
  | .jarr _ => true
  | .jobj _ => true

/-- Truthiness of a possibly-`undefined` value (`undefined` is falsy). -/
def truthyOpt : Option Json → Bool
  | none => false
  | some v => truthy v

/-- JavaScript `===` between a freshly parsed JSON value and a stored one.
Primitives compare by value; an object or array freshly produced by
`JSON.parse` is a new reference, hence never `===` a previously stored
value. -/
def jsStrictEq : Json → Json → Bool
  | .null, .null => true
  | .jbool a, .jbool b => a == b
  | .jnum a, .jnum b => a == b
  | .jstr a, .jstr b => a == b
  | _, _ => false

/-- Comparison of a value against the nullable `lastContent` slot
(`content === this.lastContent`; the slot holds `null` initially). -/
def jsStrictEqSome (v : Json) : Option Json → Bool
  | none => false
  | some w => jsStrictEq v w

/-! ## JSON text: `JSON.stringify` model -/

/-- Hex digit for string escapes. -/
def hexDigit (n : Nat) : Char :=
  if n < 10 then Char.ofNat (48 + n) else Char.ofNat (87 + n)

/-- Escaping of one character inside a JSON string literal, as
`JSON.stringify` performs it. -/
def stringifyStringChar (c : Char) : String :=
  if c = '"' then "\\\""
  else if c = '\\' then "\\\\"
  else if c = '\x08' then "\\b"
  else if c = '\t' then "\\t"
  else if c = '\n' then "\\n"
  else if c = '\x0c' then "\\f"
  else if c = '\r' then "\\r"
  else if c.toNat < 32 then
    String.mk ['\\', 'u', '0', '0', hexDigit (c.toNat / 16), hexDigit (c.toNat % 16)]
  else String.singleton c

/-- Serialization of a string, as `JSON.stringify` performs it. -/
def stringifyString (s : String) : String :=
  "\"" ++ String.join (s.data.map stringifyStringChar) ++ "\""

mutual

/-- Model of `JSON.stringify` on a decoded JSON value. -/
def stringify : Json → String
  | .null => "null"
  | .jbool true => "true"
  | .jbool false => "false"
  | .jnum n => toString n
  | .jstr s => stringifyString s
  | .jarr es => "[" ++ stringifyArr es ++ "]"
  | .jobj ms => "\x7b" ++ stringifyMems ms ++ "\x7d"

/-- Comma-joined serialization of array elements. -/
def stringifyArr : JsonArr → String
  | .nil => ""
  | .cons h .nil => stringify h
  | .cons h t => stringify h ++ "," ++ stringifyArr t

/-- Comma-joined serialization of object members. -/
def stringifyMems : JsonMems → String
  | .nil => ""
  | .cons k v .nil => stringifyString k ++ ":" ++ stringify v
  | .cons k v t => stringifyString k ++ ":" ++ stringify v ++ "," ++ stringifyMems t

end

/-! ## JSON text: `JSON.parse` model -/

/-- JSON insignificant whitespace (RFC 8259: space, tab, LF, CR). -/
def jsonWs (c : Char) : Bool :=
  c = ' ' || c = '\t' || c = '\n' || c = '\r'

/-- Drop leading JSON whitespace. -/
def skipWs (cs : List Char) : List Char :=
  cs.dropWhile jsonWs

/-- Value of a hex digit character, if it is one. -/
def hexVal (c : Char) : Option Nat :=
  if '0' ≤ c ∧ c ≤ '9' then some (c.toNat - 48)
  else if 'a' ≤ c ∧ c ≤ 'f' then some (c.toNat - 87)
  else if 'A' ≤ c ∧ c ≤ 'F' then some (c.toNat - 55)
  else none

/-- Parse the body of a JSON string literal (the opening quote already
consumed), rejecting unescaped control characters as `JSON.parse` does.
Unicode escapes outside the valid scalar range are replaced (surrogate
pairing is not modelled; the claims involve no such payloads). -/
def parseStringBody : List Char → Option (List Char × List Char)
  | [] => none
  | '"' :: rest => some ([], rest)
  | '\\' :: esc =>
    match esc with
    | '"' :: rest => (parseStringBody rest).map (fun r => ('"' :: r.1, r.2))
    | '\\' :: rest => (parseStringBody rest).map (fun r => ('\\' :: r.1, r.2))
    | '/' :: rest => (parseStringBody rest).map (fun r => ('/' :: r.1, r.2))
    | 'b' :: rest => (parseStringBody rest).map (fun r => ('\x08' :: r.1, r.2))
    | 'f' :: rest => (parseStringBody rest).map (fun r => ('\x0c' :: r.1, r.2))
    | 'n' :: rest => (parseStringBody rest).map (fun r => ('\n' :: r.1, r.2))
    | 'r' :: rest => (parseStringBody rest).map (fun r => ('\r' :: r.1, r.2))
    | 't' :: rest => (parseStringBody rest).map (fun r => ('\t' :: r.1, r.2))
    | 'u' :: h1 :: h2 :: h3 :: h4 :: rest =>
      match hexVal h1, hexVal h2, hexVal h3, hexVal h4 with
      | some a, some b, some c, some d =>
        let n := ((a * 16 + b) * 16 + c) * 16 + d
        let ch := if n.isValidChar then Char.ofNat n else '�'
        (parseStringBody rest).map (fun r => (ch :: r.1, r.2))
      | _, _, _, _ => none
    | _ => none
  | c :: rest =>
    if c.toNat < 32 then none
    else (parseStringBody rest).map (fun r => (c :: r.1, r.2))

/-- Decimal digit test. -/
def isDigit (c : Char) : Bool :=
  '0' ≤ c && c ≤ '9'

/-- Digits-to-integer accumulation. -/
def digitsToNat (acc : Nat) : List Char → Nat
  | [] => acc
  | c :: rest => digitsToNat (acc * 10 + (c.toNat - 48)) rest

/-- Parse a JSON number.  JSON forbids leading zeros; fractional and
exponent parts are not modelled (numbers are integers in this model), so
a payload carrying them is treated as malformed. -/
def parseNumber (cs : List Char) : Option (Int × List Char) :=
  let (neg, cs') := match cs with
    | '-' :: rest => (true, rest)
    | _ => (false, cs)
  let digits := cs'.takeWhile isDigit
  let rest := cs'.dropWhile isDigit
  if digits.isEmpty then none
  else if digits.length > 1 ∧ digits.headD '0' = '0' then none
  else
    let n : Int := digitsToNat 0 digits
    some (if neg then -n else n, rest)

mutual

/-- Model of `JSON.parse`: parse one JSON value, returning it with the
unconsumed remainder.  The fuel argument bounds recursion depth; the
top-level entry point supplies more fuel than any input can use. -/
def parseValue : Nat → List Char → Option (Json × List Char)
  | 0, _ => none
  | fuel + 1, cs =>
    match skipWs cs with
    | 't' :: 'r' :: 'u' :: 'e' :: rest => some (.jbool true, rest)
    | 'f' :: 'a' :: 'l' :: 's' :: 'e' :: rest => some (.jbool false, rest)
    | 'n' :: 'u' :: 'l' :: 'l' :: rest => some (.null, rest)
    | '"' :: rest =>
      (parseStringBody rest).map (fun r => (.jstr (String.mk r.1), r.2))
    | '[' :: rest =>
      match skipWs rest with
      | ']' :: rest' => some (.jarr .nil, rest')
      | _ => (parseArrItems fuel rest).map (fun r => (.jarr r.1, r.2))
    | '\x7b' :: rest =>
      match skipWs rest with
      | '\x7d' :: rest' => some (.jobj .nil, rest')
      | _ => (parseObjItems fuel rest .nil).map (fun r => (.jobj r.1, r.2))
    | rest => (parseNumber rest).map (fun r => (.jnum r.1, r.2))

/-- Parse the remaining elements of a non-empty JSON array. -/
def parseArrItems : Nat → List Char → Option (JsonArr × List Char)
  | 0, _ => none
  | fuel + 1, cs =>
    match parseValue fuel cs with
    | none => none
    | some (v, rest) =>
      match skipWs rest with
      | ',' :: rest' =>
        (parseArrItems fuel rest').map (fun r => (.cons v r.1, r.2))
      | ']' :: rest' => some (.cons v .nil, rest')
      | _ => none

/-- Parse the remaining members of a non-empty JSON object; a duplicate
key overwrites the earlier value in place, as in JavaScript. -/
def parseObjItems : Nat → List Char → JsonMems → Option (JsonMems × List Char)
  | 0, _, _ => none
  | fuel + 1, cs, acc =>
    match skipWs cs with
    | '"' :: rest =>
      match parseStringBody rest with
      | none => none
      | some (key, rest') =>
        match skipWs rest' with
        | ':' :: rest'' =>
          match parseValue fuel rest'' with
          | none => none
          | some (v, rest''') =>
            let acc' := memsInsert acc (String.mk key) v
            match skipWs rest''' with
            | ',' :: more => parseObjItems fuel more acc'
            | '\x7d' :: more => some (acc', more)
            | _ => none
        | _ => none
    | _ => none

end

/-- Model of `JSON.parse` on a whole string: the parsed value must
consume the input up to trailing whitespace. -/
def parseJson (s : String) : Option Json :=
  match parseValue (s.data.length + 1) s.data with
  | some (v, rest) => if (skipWs rest).isEmpty then some v else none
  | none => none

/-! ## Binary frame decoder (`extractJsonPayloads`)

Each message: `[total_len:4][headers_len:4][prelude_crc:4][headers][payload][msg_crc:4]`. -/

/-- Byte read from a buffer (a `Uint8Array` read; out-of-range reads do
not occur on the paths the source exercises). -/
def byteAt (buf : List Nat) (i : Nat) : Nat :=
  buf.getD i 0

/-- Big-endian 32-bit unsigned composition of four bytes. -/
def be32u (buf : List Nat) (off : Nat) : Nat :=
  byteAt buf off * 16777216 + byteAt buf (off + 1) * 65536 +
    byteAt buf (off + 2) * 256 + byteAt buf (off + 3)

/-- Reinterpretation as a JavaScript 32-bit signed integer: the source
composes the four bytes with `<<` and `|`, which operate on signed
32-bit integers, so a high bit set in the first byte yields a negative
value. -/
def asInt32 (v : Nat) : Int :=
  if v % 4294967296 < 2147483648 then (v % 4294967296 : Int)
  else (v % 4294967296 : Int) - 4294967296

/-- One bound of `Uint8Array.slice`: a negative index counts from the
end of the buffer and is clamped to `[0, length]`. -/
def jsSliceIndex (len : Nat) (i : Int) : Nat :=
  if i < 0 then ((len : Int) + i).toNat else min i.toNat len

/-- Model of `Uint8Array.prototype.slice(start, end)`. -/
def jsSlice (buf : List Nat) (a b : Int) : List Nat :=
  let s := jsSliceIndex buf.length a
  let e := jsSliceIndex buf.length b
  (buf.drop s).take (e - s)

/-- One step of UTF-8 decoding with replacement on invalid sequences
(`TextDecoder("utf-8", { fatal: false })`; the replacement granularity
for multi-byte garbage is approximated one byte at a time). -/
def utf8DecodeGo : Nat → List Nat → List Char
  | 0, _ => []
  | _, [] => []
  | fuel + 1, b0 :: rest =>
    if b0 < 128 then Char.ofNat b0 :: utf8DecodeGo fuel rest
    else if 192 ≤ b0 ∧ b0 < 224 then
      match rest with
      | b1 :: rest' =>
        if 128 ≤ b1 ∧ b1 < 192 then
          let n := (b0 - 192) * 64 + (b1 - 128)
          (if 128 ≤ n ∧ n.isValidChar then Char.ofNat n else '�') :: utf8DecodeGo fuel rest'
        else '�' :: utf8DecodeGo fuel rest
      | [] => ['�']
    else if 224 ≤ b0 ∧ b0 < 240 then
      match rest with
      | b1 :: b2 :: rest' =>
        if (128 ≤ b1 ∧ b1 < 192) ∧ (128 ≤ b2 ∧ b2 < 192) then
          let n := (b0 - 224) * 4096 + (b1 - 128) * 64 + (b2 - 128)
          (if 2048 ≤ n ∧ n.isValidChar then Char.ofNat n else '�') :: utf8DecodeGo fuel rest'
        else '�' :: utf8DecodeGo fuel rest
      | _ => ['�']
    else if 240 ≤ b0 ∧ b0 < 248 then
      match rest with
      | b1 :: b2 :: b3 :: rest' =>
        if (128 ≤ b1 ∧ b1 < 192) ∧ (128 ≤ b2 ∧ b2 < 192) ∧ (128 ≤ b3 ∧ b3 < 192) then
          let n := (b0 - 240) * 262144 + (b1 - 128) * 4096 + (b2 - 128) * 64 + (b3 - 128)
          (if 65536 ≤ n ∧ n.isValidChar then Char.ofNat n else '�') :: utf8DecodeGo fuel rest'
        else '�' :: utf8DecodeGo fuel rest
      | _ => ['�']
    else '�' :: utf8DecodeGo fuel rest

/-- Permissive UTF-8 decoding of payload bytes. -/
def utf8Decode (bs : List Nat) : String :=
  String.mk (utf8DecodeGo (bs.length + 1) bs)

/-- Whitespace stripped by JavaScript `String.prototype.trim` (ASCII
whitespace plus no-break space and BOM; other Unicode space separators
are not modelled). -/
def jsWhitespace (c : Char) : Bool :=
  c = ' ' || c = '\t' || c = '\n' || c = '\r' || c = '\x0b' || c = '\x0c' ||
    c.toNat = 160 || c.toNat = 65279

/-- Model of `String.prototype.trim`. -/
def jsTrim (s : String) : String :=
  String.mk (((s.data.dropWhile jsWhitespace).reverse.dropWhile jsWhitespace).reverse)

/-- The scan loop of `extractJsonPayloads`, returning the decoded payload
strings in scan order together with the final scan offset.  The fuel
bounds the number of iterations; the offset strictly increases each
iteration, so `buf.length + 1` fuel is always sufficient. -/
def extractLoop : Nat → List Nat → Nat → List String × Nat
  | 0, _, offset => ([], offset)
  | fuel + 1, buf, offset =>
    if offset + 12 ≤ buf.length then
      -- Read total message length (big-endian uint32, signed 32-bit arithmetic)
      let totalLen : Int := asInt32 (be32u buf offset)
      -- Sanity check: total length must be at least 16 (prelude + trailing CRC)
      if totalLen < 16 ∨ totalLen > 1000000 then
        -- Invalid frame — skip one byte and try again
        extractLoop fuel buf (offset + 1)
      else if (offset : Int) + totalLen > (buf.length : Int) then
        -- Incomplete message, wait for more data
        ([], offset)
      else
        -- Read headers length
        let headersLen : Int := asInt32 (be32u buf (offset + 4))
        -- Payload starts after: prelude (12 bytes) + headers
        let payloadStart : Int := (offset : Int) + 12 + headersLen
        -- Payload ends before: trailing CRC (4 bytes)
        let payloadEnd : Int := (offset : Int) + totalLen - 4
        let rest := extractLoop fuel buf (offset + totalLen.toNat)
        if payloadStart < payloadEnd then
          let payloadStr := utf8Decode (jsSlice buf payloadStart payloadEnd)
          if (jsTrim payloadStr).isEmpty then rest
          else (payloadStr :: rest.1, rest.2)
        else rest
    else ([], offset)

/-- Model of `extractJsonPayloads`: decoded payload strings plus the
remaining unprocessed bytes. -/
def extractJsonPayloads (rawBuffer : List Nat) : List String × List Nat :=
  let r := extractLoop (rawBuffer.length + 1) rawBuffer 0
  (r.1, rawBuffer.drop r.2)

/-! ## Event classification and the stream coordinator -/

/-- Semantic event kinds (`ParsedEvent["type"]`). -/
inductive EventType where
  | content
  | tool_start
  | tool_input
  | tool_stop
  | usage
  | context_usage
  | followup
deriving DecidableEq, Repr

/-- An emitted event (`ParsedEvent`). -/
structure ParsedEvent where
  type : EventType
  data : Json
deriving DecidableEq, Repr

/-- A finalized tool call (`CollectedToolCall`); the in-flight
accumulator has the same shape in the source. -/
structure CollectedToolCall where
  id : String
  name : String
  arguments : String
deriving DecidableEq, Repr

/-- Model of `detectEventType`: event kind from the key set of one
decoded JSON object. -/
def detectEventType (data : JsonMems) : Option EventType :=
  if hasKey data "content" then some .content
  else if hasKey data "name" then some .tool_start
  else if hasKey data "input" && !hasKey data "name" then some .tool_input
  else if hasKey data "stop" && !hasKey data "name" then some .tool_stop
  else if hasKey data "followupPrompt" then some .followup
  else if hasKey data "usage" then some .usage
  else if hasKey data "contextUsagePercentage" then some .context_usage
  else none

/-- Model of `generateToolCallId` (src/utils.ts): `call_` followed by the
first 8 characters of the UUID with its dashes removed. -/
def generateToolCallId (uuid : String) : String :=
  "call_" ++ String.mk ((uuid.data.filter (fun c => c ≠ '-')).take 8)

/-- Parser state (`AwsEventStreamParser` fields).  The source draws fresh
UUIDs from `randomUUID()`; the model threads an explicit supply of UUID
strings, consumed exactly where the source calls `generateToolCallId`.
The `usageSeen` flag is the one piece of state modelled from the spec:
it supports `isComplete`, which the provider calls but which is absent
from the available streaming source. -/
structure PState where
  rawBuffer : List Nat
  lastContent : Option Json
  currentToolCall : Option CollectedToolCall
  toolCalls : List CollectedToolCall
  usageSeen : Bool
  uuidSupply : List String
deriving DecidableEq, Repr

/-- UUID used if the explicit supply is exhausted (a stand-in for
`randomUUID()`; any well-formed UUID string works). -/
def fallbackUuid : String :=
  "00000000-0000-4000-8000-000000000000"

/-- Draw the next UUID from the supply. -/
def popUuid (s : PState) : String × PState :=
  match s.uuidSupply with
  | [] => (fallbackUuid, s)
  | u :: rest => (u, { s with uuidSupply := rest })

/-- Canonicalization of accumulated tool-call arguments at finalize time
(the body of `finalizeToolCall`): blank text or a parse failure becomes
the empty-object placeholder, a successful parse is re-serialized. -/
def canonicalArgs (args : String) : String :=
  if !(jsTrim args).isEmpty then
    match parseJson args with
    | some parsed => stringify parsed
    | none => "\x7b\x7d"
  else "\x7b\x7d"

/-- Model of `finalizeToolCall`: close the open accumulator (if any) into
a finalized record appended to `toolCalls`. -/
def finalizeToolCall (s : PState) : PState :=
  match s.currentToolCall with
  | none => s
  | some tc =>
    { s with
      toolCalls := s.toolCalls ++ [⟨tc.id, tc.name, canonicalArgs tc.arguments⟩],
      currentToolCall := none }

/-- Input-text extraction shared by the `tool_start` and `tool_input`
branches: an object or array is serialized with `JSON.stringify`, any
other truthy value is converted with `String(...)`, a falsy or absent
value yields the empty string. -/
def extractInputStr : Option Json → String
  | some (Json.jarr es) => stringify (Json.jarr es)
  | some (Json.jobj ms) => stringify (Json.jobj ms)
  | some Json.null => ""
  | some (Json.jstr s) => if s.isEmpty then "" else s
  | some (Json.jnum n) => if n = 0 then "" else toString n
  | some (Json.jbool b) => if b then "true" else ""
  | none => ""

/-- The usable `toolUseId` of a `tool_start` payload: a truthy string.
The declared interface types `toolUseId` as a string; a falsy or absent
value (and, with it, any value outside the declared string type) is not
usable. -/
def providedToolUseId (d : JsonMems) : Option String :=
  match memGet d "toolUseId" with
  | some (Json.jstr t) => if t.isEmpty then none else some t
  | _ => none

/-- String-or-generated id for a starting tool call, modelling
`(data.toolUseId as string) || generateToolCallId()`. -/
def toolStartId (s : PState) (d : JsonMems) : String × PState :=
  match providedToolUseId d with
  | some t => (t, s)
  | none =>
    let p := popUuid s
    (generateToolCallId p.1, p.2)

/-- Name of a starting tool call, modelling `(data.name as string) || ""`
under the declared string type. -/
def toolStartName (d : JsonMems) : String :=
  match memGet d "name" with
  | some (Json.jstr t) => t
  | _ => ""

/-- The `??`-defaulting of telemetry payload fields
(`data.usage ?? 0`): only `null` / `undefined` fall back to `0`. -/
def nullishDefaultZero : Option Json → Json
  | none => Json.jnum 0
  | some Json.null => Json.jnum 0
  | some v => v

/-- The extracted content value of a `content` payload, modelling
`(data.content as string) || ""`: the raw field value when truthy, the
empty string otherwise. -/
def contentExtract (d : JsonMems) : Json :=
  match memGet d "content" with
  | some v => if truthy v then v else Json.jstr ""
  | none => Json.jstr ""

/-- Model of `processEvent`: dispatch one classified payload object,
returning the emitted event (if any) and the successor state. -/
def processEvent (s : PState) (d : JsonMems) : EventType → Option ParsedEvent × PState
  | .content =>
    let content : Json := contentExtract d
    if truthyOpt (memGet d "followupPrompt") then (none, s)
    else if jsStrictEqSome content s.lastContent then (none, s) -- Dedup
    else (some ⟨.content, content⟩, { s with lastContent := some content })
  | .tool_start =>
    -- Finalize previous tool if any
    let s1 := if s.currentToolCall.isSome then finalizeToolCall s else s
    let inputStr := extractInputStr (memGet d "input")
    let ids2 := toolStartId s1 d
    let s3 := { ids2.2 with currentToolCall := some ⟨ids2.1, toolStartName d, inputStr⟩ }
    (none, if truthyOpt (memGet d "stop") then finalizeToolCall s3 else s3)
  | .tool_input =>
    match s.currentToolCall with
    | some tc =>
      let inputStr := extractInputStr (memGet d "input")
      (none, { s with currentToolCall := some ⟨tc.id, tc.name, tc.arguments ++ inputStr⟩ })
    | none => (none, s)
  | .tool_stop =>
    if s.currentToolCall.isSome && truthyOpt (memGet d "stop") then
      (none, finalizeToolCall s)
    else (none, s)
  | .usage =>
    -- The usageSeen update is modelled from the spec (isComplete support)
    (some ⟨.usage, nullishDefaultZero (memGet d "usage")⟩, { s with usageSeen := true })
  | .context_usage =>
    (some ⟨.context_usage, nullishDefaultZero (memGet d "contextUsagePercentage")⟩, s)
  | .followup => (none, s) -- default case of the switch: no event

/-- Processing of one decoded payload string (the loop body of `feed`):
a JSON parse failure skips the payload, and a payload that parses to a
non-object is also skipped (on it the source's `"content" in data` test
throws a `TypeError`, caught by the same handler). -/
def processPayload (s : PState) (payload : String) : Option ParsedEvent × PState :=
  match parseJson payload with
  | some (Json.jobj d) =>
    match detectEventType d with
    | some ty => processEvent s d ty
    | none => (none, s)
  | _ => (none, s)

/-- Processing of a list of decoded payload strings in order, collecting
the emitted events. -/
def processPayloads (s : PState) (payloads : List String) : List ParsedEvent × PState :=
  payloads.foldl
    (fun acc p =>
      let r := processPayload acc.2 p
      (acc.1 ++ r.1.toList, r.2))
    ([], s)

/-- Model of `feed`: append the chunk to the raw buffer, extract complete
frames, keep the remainder, and process each payload in order.  (The
source also accepts string chunks, which it UTF-8 encodes first; the
model works at the byte level.) -/
def feed (s : PState) (chunk : List Nat) : List ParsedEvent × PState :=
  let merged := s.rawBuffer ++ chunk
  let er := extractJsonPayloads merged
  processPayloads { s with rawBuffer := er.2 } er.1

/-- A sequence of `feed` calls, concatenating the emitted events. -/
def feedAll (s : PState) (chunks : List (List Nat)) : List ParsedEvent × PState :=
  chunks.foldl
    (fun acc c =>
      let r := feed acc.2 c
      (acc.1 ++ r.1, r.2))
    ([], s)

/-- A fresh parser (`new AwsEventStreamParser()`) with the given UUID
supply. -/
def initState (uuids : List String) : PState :=
  ⟨[], none, none, [], false, uuids⟩

/-- Modelled from the spec: `isComplete()` is absent from the available
streaming source (its caller in the provider is present).  Per §4.3 of
the spec it is true once a `usage` event has been observed and no
tool-call accumulator is currently open. -/
def isComplete (s : PState) : Bool :=
  s.usageSeen && s.currentToolCall.isNone

/-! ## Deduplication (`deduplicateToolCalls`) -/

/-- JavaScript `Map.set`: an existing key keeps its original position and
gets the new value; a new key is appended. -/
def jsMapSet (m : List (String × CollectedToolCall)) (k : String) (v : CollectedToolCall) :
    List (String × CollectedToolCall) :=
  match m with
  | [] => [(k, v)]
  | (k', v') :: rest =>
    if k' = k then (k, v) :: rest else (k', v') :: jsMapSet rest k v

/-- JavaScript `Map.get`. -/
def jsMapGet (m : List (String × CollectedToolCall)) (k : String) : Option CollectedToolCall :=
  match m with
  | [] => none
  | (k', v') :: rest => if k' = k then some v' else jsMapGet rest k

/-- The replacement condition of the first dedup pass: the incoming
record's arguments are not the empty-object placeholder, and the held
record's arguments are the placeholder or shorter
(`tc.arguments !== "{}" && (existing.arguments === "{}" ||
tc.arguments.length > existing.arguments.length)`). -/
def argsPreferred (tc existing : CollectedToolCall) : Prop :=
  tc.arguments ≠ "\x7b\x7d" ∧
    (existing.arguments = "\x7b\x7d" ∨
      existing.arguments.length < tc.arguments.length)

instance (tc existing : CollectedToolCall) : Decidable (argsPreferred tc existing) :=
  inferInstanceAs (Decidable (_ ∧ _))

/-- The loop body of the first dedup pass. -/
def dedupeUpdate (byId : List (String × CollectedToolCall)) (tc : CollectedToolCall) :
    List (String × CollectedToolCall) :=
  if tc.id.isEmpty then byId
  else
    match jsMapGet byId tc.id with
    | none => jsMapSet byId tc.id tc
    | some existing =>
      if argsPreferred tc existing then jsMapSet byId tc.id tc else byId

/-- The first pass of `deduplicateToolCalls`: group by id, preferring a
record with non-placeholder arguments, then longer argument text. -/
def dedupePass1 (calls : List CollectedToolCall) : List (String × CollectedToolCall) :=
  calls.foldl dedupeUpdate []

/-- The duplicate-suppression key of the second pass:
`` `${tc.name}-${tc.arguments}` ``. -/
def dedupeKey (tc : CollectedToolCall) : String :=
  tc.name ++ "-" ++ tc.arguments

/-- The second pass of `deduplicateToolCalls`: drop records whose
name/arguments key repeats one already kept. -/
def dedupePass2 (seen : List String) : List CollectedToolCall → List CollectedToolCall
  | [] => []
  | tc :: rest =>
    if seen.contains (dedupeKey tc) then dedupePass2 seen rest
    else tc :: dedupePass2 (dedupeKey tc :: seen) rest

/-- Model of `deduplicateToolCalls`. -/
def deduplicateToolCalls (calls : List CollectedToolCall) : List CollectedToolCall :=
  dedupePass2 [] ((dedupePass1 calls).map Prod.snd)

/-- Model of `getToolCalls`: finalize any open accumulator, then return
the deduplicated list (the successor state is returned alongside, since
the source method mutates the parser). -/
def getToolCalls (s : PState) : List CollectedToolCall × PState :=
  let s' := if s.currentToolCall.isSome then finalizeToolCall s else s
  (deduplicateToolCalls s'.toolCalls, s')

/-! ## Helper lemmas -/

/-- Every byte read from a buffer of byte values is below 256. -/
theorem byteAt_lt_256 {buf : List Nat} (h : ∀ b ∈ buf, b < 256) (i : Nat) :
    byteAt buf i < 256 := by
  unfold byteAt
  by_cases hi : i < buf.length
  · rw [List.getD_eq_getElem buf 0 hi]
    exact h _ (List.getElem_mem hi)
  · rw [List.getD_eq_default buf 0 (Nat.le_of_not_lt hi)]
    omega

/-- A 32-bit big-endian read from a byte buffer is below `2 ^ 32`. -/
theorem be32u_lt {buf : List Nat} (h : ∀ b ∈ buf, b < 256) (off : Nat) :
    be32u buf off < 4294967296 := by
  have h0 := byteAt_lt_256 h off
  have h1 := byteAt_lt_256 h (off + 1)
  have h2 := byteAt_lt_256 h (off + 2)
  have h3 := byteAt_lt_256 h (off + 3)
  unfold be32u
  omega

/-- The source's signed-32-bit length-sanity test agrees with the test
on the unsigned big-endian value, for any value below `2 ^ 32`. -/
theorem asInt32_sanity_iff {v : Nat} (hv : v < 4294967296) :
    (asInt32 v < 16 ∨ asInt32 v > 1000000) ↔ (v < 16 ∨ v > 1000000) := by
  unfold asInt32
  split <;> omega

/-! ## C8: classifier priority order -/

/-- C8: for every JSON object the classifier returns the kind of the
first matching rule in this exact order and no other: `content` key →
content; otherwise `name` → tool_start; otherwise `input` → tool_input;
otherwise `stop` → tool_stop; otherwise `followupPrompt` → followup;
otherwise `usage` → usage; otherwise `contextUsagePercentage` →
context_usage; otherwise no event. -/
theorem detectEventType_priority (d : JsonMems) :
    detectEventType d =
      (if hasKey d "content" then some EventType.content
       else if hasKey d "name" then some EventType.tool_start
       else if hasKey d "input" then some EventType.tool_input
       else if hasKey d "stop" then some EventType.tool_stop
       else if hasKey d "followupPrompt" then some EventType.followup
       else if hasKey d "usage" then some EventType.usage
       else if hasKey d "contextUsagePercentage" then some EventType.context_usage
       else none) := by
  unfold detectEventType
  cases h1 : hasKey d "content" <;> cases h2 : hasKey d "name" <;> simp [h1, h2]

/-! ## C7: one-byte resynchronization on an implausible frame length -/

/-- C7: whenever the decoder reads a 4-byte big-endian total-length
field at the current scan offset whose value is below 16 or above
1,000,000, it advances the scan offset by exactly one byte and retries;
no payload is produced from such a frame (the step contributes nothing
to the extracted payloads).  The source compares the signed 32-bit
reading; over byte-valued buffers this is equivalent to the comparison
on the unsigned value. -/
theorem extractLoop_resync_step (fuel : Nat) (buf : List Nat) (off : Nat)
    (hbytes : ∀ b ∈ buf, b < 256)
    (hroom : off + 12 ≤ buf.length)
    (hlen : be32u buf off < 16 ∨ be32u buf off > 1000000) :
    extractLoop (fuel + 1) buf off = extractLoop fuel buf (off + 1) := by
  have hv := be32u_lt hbytes off
  have hcond : asInt32 (be32u buf off) < 16 ∨ asInt32 (be32u buf off) > 1000000 :=
    (asInt32_sanity_iff hv).mpr hlen
  conv_lhs => rw [extractLoop]
  rw [if_pos hroom, if_pos hcond]

/-- Concrete instance of the resynchronization step: a 12-byte buffer of
zeros declares total length 0, which is rejected and skipped one byte. -/
theorem extractLoop_resync_step_witness :
    extractLoop 1 [0, 0, 0, 0, 0, 0, 0, 0, 0, 0, 0, 0] 0 =
      extractLoop 0 [0, 0, 0, 0, 0, 0, 0, 0, 0, 0, 0, 0] 1 :=
  extractLoop_resync_step 0 [0, 0, 0, 0, 0, 0, 0, 0, 0, 0, 0, 0] 0
    (by decide) (by decide) (by decide)

/-! ## Fold structure of payload processing -/

/-- Shifting the event accumulator out of the payload-processing fold. -/
theorem processPayloads_shift (payloads : List String) (a : List ParsedEvent) (s : PState) :
    payloads.foldl
      (fun acc p =>
        let r := processPayload acc.2 p
        (acc.1 ++ r.1.toList, r.2)) (a, s) =
    (a ++ (processPayloads s payloads).1, (processPayloads s payloads).2) := by
  induction payloads generalizing a s with
  | nil => simp [processPayloads]
  | cons p ps ih =>
    simp only [processPayloads, List.foldl_cons]
    rw [ih, ih]
    simp

/-- Unfolding one payload from the front of `processPayloads`. -/
theorem processPayloads_cons (s : PState) (p : String) (ps : List String) :
    processPayloads s (p :: ps) =
      ((processPayload s p).1.toList ++ (processPayloads (processPayload s p).2 ps).1,
        (processPayloads (processPayload s p).2 ps).2) := by
  simp only [processPayloads, List.foldl_cons]
  rw [processPayloads_shift]
  simp [processPayloads]

/-- Shifting the event accumulator out of the chunk-feeding fold. -/
theorem feedAll_shift (chunks : List (List Nat)) (a : List ParsedEvent) (s : PState) :
    chunks.foldl
      (fun acc c =>
        let r := feed acc.2 c
        (acc.1 ++ r.1, r.2)) (a, s) =
    (a ++ (feedAll s chunks).1, (feedAll s chunks).2) := by
  induction chunks generalizing a s with
  | nil => simp [feedAll]
  | cons c cs ih =>
    simp only [feedAll, List.foldl_cons]
    rw [ih, ih]
    simp

/-- Unfolding one chunk from the front of `feedAll`. -/
theorem feedAll_cons (s : PState) (c : List Nat) (cs : List (List Nat)) :
    feedAll s (c :: cs) =
      ((feed s c).1 ++ (feedAll (feed s c).2 cs).1, (feedAll (feed s c).2 cs).2) := by
  simp only [feedAll, List.foldl_cons]
  rw [feedAll_shift]
  simp [feedAll]

/-- A state property preserved by each payload step is preserved by
`processPayloads`. -/
theorem processPayloads_invariant (P : PState → Prop)
    (hstep : ∀ s p, P s → P (processPayload s p).2)
    (payloads : List String) (s : PState) (hs : P s) :
    P (processPayloads s payloads).2 := by
  induction payloads generalizing s with
  | nil => exact hs
  | cons p ps ih =>
    rw [processPayloads_cons]
    exact ih _ (hstep s p hs)

/-! ## Structure of dispatch steps -/

/-- The state component of drawing a UUID differs from the input state
at most in the supply. -/
theorem popUuid_snd (s : PState) :
    ∃ us, (popUuid s).2 = { s with uuidSupply := us } := by
  unfold popUuid
  cases s.uuidSupply with
  | nil => exact ⟨s.uuidSupply, rfl⟩
  | cons u rest => exact ⟨rest, rfl⟩

/-- The state component of the tool-call id choice differs from the
input state at most in the UUID supply. -/
theorem toolStartId_snd (s : PState) (d : JsonMems) :
    ∃ us, (toolStartId s d).2 = { s with uuidSupply := us } := by
  unfold toolStartId
  cases providedToolUseId d with
  | some t => exact ⟨s.uuidSupply, rfl⟩
  | none => simpa using popUuid_snd s

/-- Finalization appends at most one canonicalized record and clears the
accumulator. -/
theorem finalizeToolCall_cases (s : PState) :
    (s.currentToolCall = none ∧ finalizeToolCall s = s) ∨
    (∃ tc, s.currentToolCall = some tc ∧
      finalizeToolCall s =
        { s with
          toolCalls := s.toolCalls ++ [⟨tc.id, tc.name, canonicalArgs tc.arguments⟩],
          currentToolCall := none }) := by
  unfold finalizeToolCall
  cases h : s.currentToolCall with
  | none => exact Or.inl ⟨rfl, rfl⟩
  | some tc => exact Or.inr ⟨tc, rfl, rfl⟩

/-- Records appended to the finalized list by one dispatch step are
canonicalized finalize records. -/
theorem processEvent_toolCalls_append (s : PState) (d : JsonMems) (ty : EventType) :
    ∃ l : List CollectedToolCall,
      (processEvent s d ty).2.toolCalls = s.toolCalls ++ l ∧
      ∀ r ∈ l, ∃ tc : CollectedToolCall,
        r = ⟨tc.id, tc.name, canonicalArgs tc.arguments⟩ := by
  have hfin : ∀ t : PState,
      ∃ l : List CollectedToolCall,
        (finalizeToolCall t).toolCalls = t.toolCalls ++ l ∧
        ∀ r ∈ l, ∃ tc : CollectedToolCall,
          r = ⟨tc.id, tc.name, canonicalArgs tc.arguments⟩ := by
    intro t
    rcases finalizeToolCall_cases t with ⟨_, heq⟩ | ⟨tc, _, heq⟩
    · exact ⟨[], by simp [heq], by simp⟩
    · refine ⟨[⟨tc.id, tc.name, canonicalArgs tc.arguments⟩], by simp [heq], ?_⟩
      intro r hr
      simp only [List.mem_singleton] at hr
      exact ⟨tc, hr⟩
  cases ty with
  | content =>
    refine ⟨[], ?_, by simp⟩
    simp only [processEvent]
    split
    · simp
    · split <;> simp
  | tool_start =>
    simp only [processEvent]
    have h₁ : ∃ l₁ : List CollectedToolCall,
        (if s.currentToolCall.isSome then finalizeToolCall s else s).toolCalls =
          s.toolCalls ++ l₁ ∧
        ∀ r ∈ l₁, ∃ tc : CollectedToolCall,
          r = ⟨tc.id, tc.name, canonicalArgs tc.arguments⟩ := by
      split
      · exact hfin s
      · exact ⟨[], by simp, by simp⟩
    obtain ⟨l₁, h₁, hc₁⟩ := h₁
    set s1 : PState := if s.currentToolCall.isSome then finalizeToolCall s else s with hs1
    obtain ⟨us, hus⟩ := toolStartId_snd s1 d
    set s3 : PState :=
      { (toolStartId s1 d).2 with
        currentToolCall :=
          some ⟨(toolStartId s1 d).1, toolStartName d,
            extractInputStr (memGet d "input")⟩ } with hs3
    have hs3tc : s3.toolCalls = s.toolCalls ++ l₁ := by
      rw [hs3, hus]
      simpa using h₁
    split
    · obtain ⟨l₂, h₂, hc₂⟩ := hfin s3
      refine ⟨l₁ ++ l₂, ?_, ?_⟩
      · simp [h₂, hus, h₁, List.append_assoc]
      · intro r hr
        rcases List.mem_append.mp hr with hr | hr
        · exact hc₁ r hr
        · exact hc₂ r hr
    · exact ⟨l₁, hs3tc, hc₁⟩
  | tool_input =>
    refine ⟨[], ?_, by simp⟩
    simp only [processEvent]
    cases s.currentToolCall <;> simp
  | tool_stop =>
    simp only [processEvent]
    split
    · simpa using hfin s
    · exact ⟨[], by simp, by simp⟩
  | usage => exact ⟨[], by simp [processEvent], by simp⟩
  | context_usage => exact ⟨[], by simp [processEvent], by simp⟩
  | followup => exact ⟨[], by simp [processEvent], by simp⟩

/-! ## C3: canonicalization of finalized tool-call arguments -/

/-- Every canonicalized argument text is the serialization of some JSON
value (in particular it is syntactically valid JSON text). -/
theorem canonicalArgs_isStringify (args : String) :
    ∃ v : Json, canonicalArgs args = stringify v := by
  unfold canonicalArgs
  split
  · split
    · next v _ => exact ⟨v, rfl⟩
    · exact ⟨Json.jobj .nil, by decide⟩
  · exact ⟨Json.jobj .nil, by decide⟩

/-- Records appended to the finalized list by one payload are
canonicalized finalize records. -/
theorem processPayload_toolCalls_append (s : PState) (p : String) :
    ∃ l : List CollectedToolCall,
      (processPayload s p).2.toolCalls = s.toolCalls ++ l ∧
      ∀ r ∈ l, ∃ tc : CollectedToolCall,
        r = ⟨tc.id, tc.name, canonicalArgs tc.arguments⟩ := by
  unfold processPayload
  split
  · split
    · apply processEvent_toolCalls_append
    · exact ⟨[], by simp, by simp⟩
  · exact ⟨[], by simp, by simp⟩

/-- The spec phrase "a syntactically valid JSON text (object)": the text
is the serialization of some JSON object. -/
def jsonObjectText (s : String) : Prop :=
  ∃ ms : JsonMems, s = stringify (Json.jobj ms)

/-- C3 (amended): at finalization, blank accumulated argument text
canonicalizes to "\x7b\x7d", JSON-parseable text to its re-serialized
parse result, and unparseable text to "\x7b\x7d"; canonicalization is a
total function (no error path exists), and every argument text appended
to the finalized list during a run is the serialization of some JSON
value — hence syntactically valid JSON text, though not necessarily the
text of an object. -/
theorem canonicalArgs_finalization (args : String) (uuids : List String)
    (payloads : List String) :
    ((jsTrim args).isEmpty → canonicalArgs args = "\x7b\x7d") ∧
    (∀ v : Json, parseJson args = some v → ¬(jsTrim args).isEmpty = true →
      canonicalArgs args = stringify v) ∧
    (parseJson args = none → canonicalArgs args = "\x7b\x7d") ∧
    (∃ v : Json, canonicalArgs args = stringify v) ∧
    (∀ r ∈ (processPayloads (initState uuids) payloads).2.toolCalls,
      ∃ v : Json, r.arguments = stringify v) := by
  refine ⟨?_, ?_, ?_, canonicalArgs_isStringify args, ?_⟩
  · intro hblank
    unfold canonicalArgs
    simp [hblank]
  · intro v hv hb
    unfold canonicalArgs
    split
    · rw [hv]
    · next hn =>
      simp at hn
      exact absurd hn hb
  · intro hv
    unfold canonicalArgs
    split
    · rw [hv]
    · rfl
  · refine processPayloads_invariant
      (fun t => ∀ r ∈ t.toolCalls, ∃ v : Json, r.arguments = stringify v)
      ?_ payloads (initState uuids) (by simp [initState])
    intro t p ht r hr
    obtain ⟨l, hl, hc⟩ := processPayload_toolCalls_append t p
    rw [hl] at hr
    rcases List.mem_append.mp hr with hr | hr
    · exact ht r hr
    · obtain ⟨tc, rfl⟩ := hc r hr
      exact canonicalArgs_isStringify tc.arguments

/-- Concrete instances of the canonicalization rules: blank text and
unparseable text yield the empty-object placeholder, and the digit text
"5" survives the JSON round trip. -/
theorem canonicalArgs_finalization_witness :
    canonicalArgs " " = "\x7b\x7d" ∧
    canonicalArgs "5" = stringify (Json.jnum 5) ∧
    canonicalArgs "nope" = "\x7b\x7d" :=
  ⟨(canonicalArgs_finalization " " [] []).1 (by decide),
   (canonicalArgs_finalization "5" [] []).2.1 (Json.jnum 5) (by decide) (by decide),
   (canonicalArgs_finalization "nope" [] []).2.2.1 (by decide)⟩

/-- Refutation of the claim's object conjunct: the run that starts a
tool call with `input: 5` and stops it appends a finalized record whose
arguments text is "5" — syntactically valid JSON, but not the text of
any JSON object. -/
theorem canonicalArgs_object_counterexample :
    (processPayloads (initState [])
        ["\x7b\"name\":\"x\",\"toolUseId\":\"t1\",\"input\":5\x7d",
         "\x7b\"stop\":true\x7d"]).2.toolCalls =
      [⟨"t1", "x", "5"⟩] ∧
    ¬ jsonObjectText "5" := by
  constructor
  · decide
  · rintro ⟨ms, hms⟩
    have h := congrArg String.data hms
    simp only [show stringify (Json.jobj ms) = "\x7b" ++ stringifyMems ms ++ "\x7d" from rfl,
      String.data_append] at h
    simp at h

/-! ## C6: content emission, suppression and duplicate handling -/

/-- C6 (amended): for a payload classified as content, a truthy
`followupPrompt` field suppresses the event and leaves the state
unchanged; otherwise, an extracted value strictly equal to the stored
`lastContent` suppresses the event and leaves the state unchanged;
otherwise `lastContent` is updated to the extracted value and exactly
one content event carrying it is emitted — in particular, processing a
second content payload with the same extracted string text emits
nothing. -/
theorem processEvent_content_rules (s : PState) (d : JsonMems)
    (_hty : detectEventType d = some EventType.content) :
    (truthyOpt (memGet d "followupPrompt") = true →
      processEvent s d EventType.content = (none, s)) ∧
    (truthyOpt (memGet d "followupPrompt") = false →
      jsStrictEqSome (contentExtract d) s.lastContent = true →
      processEvent s d EventType.content = (none, s)) ∧
    (truthyOpt (memGet d "followupPrompt") = false →
      jsStrictEqSome (contentExtract d) s.lastContent = false →
      processEvent s d EventType.content =
        (some ⟨EventType.content, contentExtract d⟩,
          { s with lastContent := some (contentExtract d) }) ∧
      (∀ t : String, contentExtract d = Json.jstr t →
        (processEvent { s with lastContent := some (contentExtract d) } d
          EventType.content).1 = none)) := by
  refine ⟨?_, ?_, ?_⟩
  · intro hf
    simp [processEvent, hf]
  · intro hf he
    simp [processEvent, hf, he]
  · intro hf he
    refine ⟨by simp [processEvent, hf, he], ?_⟩
    intro t ht
    simp [processEvent, hf, ht, jsStrictEqSome, jsStrictEq]

/-- Concrete instance of the content rules: a first content payload is
emitted and recorded, and an identical repeat is suppressed. -/
theorem processEvent_content_rules_witness :
    processEvent (initState []) (JsonMems.cons "content" (Json.jstr "a") .nil)
        EventType.content =
      (some ⟨EventType.content, Json.jstr "a"⟩,
        { initState [] with lastContent := some (Json.jstr "a") }) ∧
    (processEvent { initState [] with lastContent := some (Json.jstr "a") }
        (JsonMems.cons "content" (Json.jstr "a") .nil) EventType.content).1 = none := by
  have h := (processEvent_content_rules (initState [])
    (JsonMems.cons "content" (Json.jstr "a") .nil) (by decide)).2.2 (by decide) (by decide)
  exact ⟨h.1, h.2 "a" (by decide)⟩

/-- Refutation of the claim as stated: the payload
`{"content":"a","followupPrompt":null}` carries a `followupPrompt`
field, yet a fresh coordinator emits a content event from it, because
the source suppresses only a truthy `followupPrompt` value. -/
theorem content_followup_counterexample :
    (match parseJson "\x7b\"content\":\"a\",\"followupPrompt\":null\x7d" with
      | some (Json.jobj d) => hasKey d "followupPrompt"
      | _ => false) = true ∧
    (processPayloads (initState [])
        ["\x7b\"content\":\"a\",\"followupPrompt\":null\x7d"]).1 =
      [⟨EventType.content, Json.jstr "a"⟩] := by
  exact ⟨by decide, by decide⟩

/-! ## C5: implicit close on tool-call supersession -/

/-- C5: when a tool_start payload is processed while an accumulator is
open, the open call is finalized and appended before anything else (so
the finalized list follows start order; the `Option` accumulator makes
more than one open call unrepresentable); without a truthy `stop` field
the newly opened accumulator is the only other change, and with a truthy
`stop` field the new call is finalized immediately in the same step. -/
theorem processEvent_tool_start_supersede (s : PState) (d : JsonMems)
    (tc : CollectedToolCall)
    (hopen : s.currentToolCall = some tc)
    (_hty : detectEventType d = some EventType.tool_start) :
    ((processEvent s d EventType.tool_start).2.toolCalls.take (s.toolCalls.length + 1) =
      s.toolCalls ++ [⟨tc.id, tc.name, canonicalArgs tc.arguments⟩]) ∧
    (truthyOpt (memGet d "stop") = false →
      (processEvent s d EventType.tool_start).2.toolCalls =
        s.toolCalls ++ [⟨tc.id, tc.name, canonicalArgs tc.arguments⟩] ∧
      (processEvent s d EventType.tool_start).2.currentToolCall =
        some ⟨(toolStartId (finalizeToolCall s) d).1, toolStartName d,
          extractInputStr (memGet d "input")⟩) ∧
    (truthyOpt (memGet d "stop") = true →
      (processEvent s d EventType.tool_start).2.currentToolCall = none ∧
      (processEvent s d EventType.tool_start).2.toolCalls =
        s.toolCalls ++
          [⟨tc.id, tc.name, canonicalArgs tc.arguments⟩,
           ⟨(toolStartId (finalizeToolCall s) d).1, toolStartName d,
             canonicalArgs (extractInputStr (memGet d "input"))⟩]) := by
  have hfin : finalizeToolCall s =
      { s with
        toolCalls := s.toolCalls ++ [⟨tc.id, tc.name, canonicalArgs tc.arguments⟩],
        currentToolCall := none } := by
    unfold finalizeToolCall
    rw [hopen]
  have htake : ∀ (l : List CollectedToolCall) (a : CollectedToolCall)
      (l' : List CollectedToolCall),
      ((l ++ [a]) ++ l').take (l.length + 1) = l ++ [a] := by
    intro l a l'
    have hlen : l.length + 1 = (l ++ [a]).length := by simp
    rw [hlen, List.take_left]
  obtain ⟨us, hus⟩ := toolStartId_snd (finalizeToolCall s) d
  by_cases hstop : truthyOpt (memGet d "stop") = true
  · have hstate : (processEvent s d EventType.tool_start).2 =
        finalizeToolCall
          { (toolStartId (finalizeToolCall s) d).2 with
            currentToolCall :=
              some ⟨(toolStartId (finalizeToolCall s) d).1, toolStartName d,
                extractInputStr (memGet d "input")⟩ } := by
      simp [processEvent, hopen, hstop]
    rw [hstate, hus, hfin]
    simp only [finalizeToolCall]
    refine ⟨?_, by simp [hstop], by simp [hstop, List.append_assoc]⟩
    simpa using htake s.toolCalls ⟨tc.id, tc.name, canonicalArgs tc.arguments⟩ _
  · have hstop' : truthyOpt (memGet d "stop") = false := by
      simpa using hstop
    have hstate : (processEvent s d EventType.tool_start).2 =
        { (toolStartId (finalizeToolCall s) d).2 with
          currentToolCall :=
            some ⟨(toolStartId (finalizeToolCall s) d).1, toolStartName d,
              extractInputStr (memGet d "input")⟩ } := by
      simp [processEvent, hopen, hstop']
    rw [hstate, hus, hfin]
    refine ⟨?_, by simp [hstop'], by simp [hstop]⟩
    simp [htake s.toolCalls ⟨tc.id, tc.name, canonicalArgs tc.arguments⟩ []]

/-- Concrete instance of the supersession rules: a second tool_start
finalizes the open call "t1" first and opens "t2". -/
theorem processEvent_tool_start_supersede_witness :
    (processEvent
        { initState [] with currentToolCall := some ⟨"t1", "x", ""⟩ }
        (JsonMems.cons "name" (Json.jstr "y") (.cons "toolUseId" (Json.jstr "t2") .nil))
        EventType.tool_start).2.toolCalls =
      [⟨"t1", "x", "\x7b\x7d"⟩] ∧
    (processEvent
        { initState [] with currentToolCall := some ⟨"t1", "x", ""⟩ }
        (JsonMems.cons "name" (Json.jstr "y") (.cons "toolUseId" (Json.jstr "t2") .nil))
        EventType.tool_start).2.currentToolCall = some ⟨"t2", "y", ""⟩ := by
  have h := (processEvent_tool_start_supersede
    { initState [] with currentToolCall := some ⟨"t1", "x", ""⟩ }
    (JsonMems.cons "name" (Json.jstr "y") (.cons "toolUseId" (Json.jstr "t2") .nil))
    ⟨"t1", "x", ""⟩ (by decide) (by decide)).2.1 (by decide)
  exact ⟨by simpa using h.1, by simpa using h.2⟩

/-! ## C2: the completion predicate tracks emitted usage events -/

/-- Finalization does not touch the usage flag. -/
theorem finalizeToolCall_usageSeen (s : PState) :
    (finalizeToolCall s).usageSeen = s.usageSeen := by
  unfold finalizeToolCall
  cases s.currentToolCall <;> rfl

/-- One dispatch step sets the usage flag exactly when it emits a usage
event. -/
theorem processEvent_usageSeen (s : PState) (d : JsonMems) (ty : EventType) :
    (processEvent s d ty).2.usageSeen =
      (s.usageSeen ||
        (processEvent s d ty).1.toList.any (fun e => e.type == EventType.usage)) := by
  cases ty with
  | content =>
    simp only [processEvent]
    split
    · simp
    · split <;> simp
  | tool_start =>
    simp only [processEvent]
    set s1 : PState := if s.currentToolCall.isSome then finalizeToolCall s else s with hs1
    have h1 : s1.usageSeen = s.usageSeen := by
      rw [hs1]
      split
    /- the implicit close does not touch the flag -/
      · exact finalizeToolCall_usageSeen s
      · rfl
    obtain ⟨us, hus⟩ := toolStartId_snd s1 d
    split
    · simp [finalizeToolCall_usageSeen, hus, h1]
    · simp [hus, h1]
  | tool_input =>
    simp only [processEvent]
    cases s.currentToolCall <;> simp
  | tool_stop =>
    simp only [processEvent]
    split
    · simp [finalizeToolCall_usageSeen]
    · simp
  | usage => simp [processEvent]
  | context_usage => simp [processEvent]
  | followup => simp [processEvent]

/-- One payload sets the usage flag exactly when it emits a usage
event. -/
theorem processPayload_usageSeen (s : PState) (p : String) :
    (processPayload s p).2.usageSeen =
      (s.usageSeen ||
        (processPayload s p).1.toList.any (fun e => e.type == EventType.usage)) := by
  unfold processPayload
  split
  · split
    · apply processEvent_usageSeen
    · simp
  · simp

/-- A payload sequence sets the usage flag exactly when some emitted
event is a usage event. -/
theorem processPayloads_usageSeen (payloads : List String) (s : PState) :
    (processPayloads s payloads).2.usageSeen =
      (s.usageSeen ||
        (processPayloads s payloads).1.any (fun e => e.type == EventType.usage)) := by
  induction payloads generalizing s with
  | nil => simp [processPayloads]
  | cons p ps ih =>
    rw [processPayloads_cons]
    simp only [List.any_append]
    rw [ih, processPayload_usageSeen]
    simp [Bool.or_assoc]

/-- One feed call sets the usage flag exactly when some event it emits
is a usage event. -/
theorem feed_usageSeen (s : PState) (c : List Nat) :
    (feed s c).2.usageSeen =
      (s.usageSeen || (feed s c).1.any (fun e => e.type == EventType.usage)) := by
  unfold feed
  rw [processPayloads_usageSeen]

/-- A feed sequence sets the usage flag exactly when some emitted event
is a usage event. -/
theorem feedAll_usageSeen (chunks : List (List Nat)) (s : PState) :
    (feedAll s chunks).2.usageSeen =
      (s.usageSeen || (feedAll s chunks).1.any (fun e => e.type == EventType.usage)) := by
  induction chunks generalizing s with
  | nil => simp [feedAll]
  | cons c cs ih =>
    rw [feedAll_cons]
    simp only [List.any_append]
    rw [ih, feed_usageSeen]
    simp [Bool.or_assoc]

/-- C2: after any sequence of feed calls on a fresh coordinator,
isComplete is true exactly when some emitted event was a usage event and
no tool-call accumulator is currently open; hence it is false before any
usage event, and stays false after one as long as a call is open.
(isComplete itself is modelled from the spec; the flag it reads is
proved to track emitted usage events.) -/
theorem isComplete_characterization (uuids : List String) (chunks : List (List Nat)) :
    isComplete (feedAll (initState uuids) chunks).2 =
      ((feedAll (initState uuids) chunks).1.any (fun e => e.type == EventType.usage) &&
        (feedAll (initState uuids) chunks).2.currentToolCall.isNone) := by
  unfold isComplete
  rw [feedAll_usageSeen]
  simp [initState]

/-! ## C10: ids of finalized tool calls are never empty -/

/-- A generated tool-call id is never the empty string. -/
theorem generateToolCallId_ne_empty (u : String) : generateToolCallId u ≠ "" := by
  intro h
  have h2 := congrArg String.length h
  simp only [generateToolCallId, String.length_append] at h2
  have h5 : ("call_" : String).length = 5 := rfl
  have h0 : ("" : String).length = 0 := rfl
  omega

/-- A provided tool-use id is never the empty string. -/
theorem providedToolUseId_ne_empty (d : JsonMems) (t : String)
    (h : providedToolUseId d = some t) : t ≠ "" := by
  unfold providedToolUseId at h
  split at h
  · split at h
    · exact absurd h (by simp)
    · next hne =>
      rw [Option.some.injEq] at h
      intro habs
      apply hne
      rw [h, habs]
      rfl
  · exact absurd h (by simp)

/-- The id chosen at a tool_start is never the empty string. -/
theorem toolStartId_ne_empty (s : PState) (d : JsonMems) : (toolStartId s d).1 ≠ "" := by
  unfold toolStartId
  split
  · next t ht => exact providedToolUseId_ne_empty d t ht
  · exact generateToolCallId_ne_empty _

/-- Nonemptiness of ids is preserved by finalization. -/
theorem finalizeToolCall_ids (s : PState)
    (h1 : ∀ r ∈ s.toolCalls, r.id ≠ "")
    (h2 : ∀ tc, s.currentToolCall = some tc → tc.id ≠ "") :
    (∀ r ∈ (finalizeToolCall s).toolCalls, r.id ≠ "") ∧
    (∀ tc, (finalizeToolCall s).currentToolCall = some tc → tc.id ≠ "") := by
  rcases finalizeToolCall_cases s with ⟨_, heq⟩ | ⟨tc, hsome, heq⟩
  · rw [heq]
    exact ⟨h1, h2⟩
  · rw [heq]
    refine ⟨?_, by simp⟩
    intro r hr
    rcases List.mem_append.mp hr with hr | hr
    · exact h1 r hr
    · simp only [List.mem_singleton] at hr
      rw [hr]
      exact h2 tc hsome

/-- Nonemptiness of ids is preserved by one dispatch step. -/
theorem processEvent_ids (s : PState) (d : JsonMems) (ty : EventType)
    (h1 : ∀ r ∈ s.toolCalls, r.id ≠ "")
    (h2 : ∀ tc, s.currentToolCall = some tc → tc.id ≠ "") :
    (∀ r ∈ (processEvent s d ty).2.toolCalls, r.id ≠ "") ∧
    (∀ tc, (processEvent s d ty).2.currentToolCall = some tc → tc.id ≠ "") := by
  cases ty with
  | content =>
    simp only [processEvent]
    split
    · exact ⟨h1, h2⟩
    · split
      · exact ⟨h1, h2⟩
      · exact ⟨h1, h2⟩
  | tool_start =>
    simp only [processEvent]
    set s1 : PState := if s.currentToolCall.isSome then finalizeToolCall s else s with hs1
    have q1 : (∀ r ∈ s1.toolCalls, r.id ≠ "") ∧
        (∀ tc, s1.currentToolCall = some tc → tc.id ≠ "") := by
      rw [hs1]
      split
      · exact finalizeToolCall_ids s h1 h2
      · exact ⟨h1, h2⟩
    obtain ⟨us, hus⟩ := toolStartId_snd s1 d
    have q3 : (∀ r ∈ ({ (toolStartId s1 d).2 with
          currentToolCall :=
            some ⟨(toolStartId s1 d).1, toolStartName d,
              extractInputStr (memGet d "input")⟩ } : PState).toolCalls, r.id ≠ "") ∧
        (∀ tc, ({ (toolStartId s1 d).2 with
          currentToolCall :=
            some ⟨(toolStartId s1 d).1, toolStartName d,
              extractInputStr (memGet d "input")⟩ } : PState).currentToolCall =
            some tc → tc.id ≠ "") := by
      constructor
      · intro r hr
        rw [hus] at hr
        exact q1.1 r hr
      · intro tc htc
        simp only [Option.some.injEq] at htc
        rw [← htc]
        exact toolStartId_ne_empty s1 d
    split
    · exact finalizeToolCall_ids _ q3.1 q3.2
    · exact q3
  | tool_input =>
    simp only [processEvent]
    cases hcur : s.currentToolCall with
    | none => exact ⟨h1, h2⟩
    | some tc =>
      refine ⟨h1, ?_⟩
      intro tc' htc'
      simp only [Option.some.injEq] at htc'
      rw [← htc']
      exact h2 tc hcur
  | tool_stop =>
    simp only [processEvent]
    split
    · exact finalizeToolCall_ids s h1 h2
    · exact ⟨h1, h2⟩
  | usage => exact ⟨h1, h2⟩
  | context_usage => exact ⟨h1, h2⟩
  | followup => exact ⟨h1, h2⟩

/-- C10: every record appended to the finalized list during a run has a
non-empty id (so the deduplicator's drop-empty-id rule never fires on a
list this coordinator produced); a tool_start whose toolUseId is absent,
empty or otherwise falsy receives the generated id, and a generated id
is "call_" followed by 8 characters whenever the UUID has at least 8
non-dash characters (a `randomUUID()` result has 32). -/
theorem toolCall_ids_nonempty (uuids : List String) (payloads : List String) :
    (∀ r ∈ (processPayloads (initState uuids) payloads).2.toolCalls, r.id ≠ "") ∧
    (∀ (s : PState) (d : JsonMems), providedToolUseId d = none →
      (toolStartId s d).1 = generateToolCallId (popUuid s).1) ∧
    (∀ u : String, 8 ≤ (u.data.filter (fun c => c ≠ '-')).length →
      ∃ suffix : String, generateToolCallId u = "call_" ++ suffix ∧
        suffix.length = 8) := by
  refine ⟨?_, ?_, ?_⟩
  · have h := processPayloads_invariant
      (fun t => (∀ r ∈ t.toolCalls, r.id ≠ "") ∧
        (∀ tc, t.currentToolCall = some tc → tc.id ≠ ""))
      ?_ payloads (initState uuids) (by simp [initState])
    · exact h.1
    · intro t p ht
      unfold processPayload
      split
      · split
        · exact processEvent_ids t _ _ ht.1 ht.2
        · exact ht
      · exact ht
  · intro s d h
    unfold toolStartId
    rw [h]
  · intro u hu
    refine ⟨String.mk ((u.data.filter (fun c => c ≠ '-')).take 8), rfl, ?_⟩
    simp only [String.length, List.length_take]
    omega

/-- Concrete instance: with no usable toolUseId, the id is generated
from the next UUID, and the concrete run appends a record whose id is
the non-empty generated "call_01234567". -/
theorem toolCall_ids_nonempty_witness :
    (toolStartId (initState ["0123-4567-89ab-cdef"]) JsonMems.nil).1 =
      generateToolCallId "0123-4567-89ab-cdef" ∧
    ((⟨"call_01234567", "x", "\x7b\x7d"⟩ : CollectedToolCall).id ≠ "") := by
  constructor
  · exact (toolCall_ids_nonempty [] []).2.1 (initState ["0123-4567-89ab-cdef"])
      JsonMems.nil (by decide)
  · exact (toolCall_ids_nonempty ["0123-4567-89ab-cdef"]
      ["\x7b\"name\":\"x\",\"stop\":true\x7d"]).1
      ⟨"call_01234567", "x", "\x7b\x7d"⟩ (by decide)

/-! ## C4: deduplication -/

/-- Nonempty test of a string as a proposition. -/
theorem isEmpty_eq_false_iff (s : String) : s.isEmpty = false ↔ s ≠ "" := by
  constructor
  · intro h habs
    rw [habs] at h
    exact absurd h (by decide)
  · intro h
    cases hb : s.isEmpty
    · rfl
    · exact absurd ((String.isEmpty_iff s).mp hb) h

/-- The replacement preference never prefers a record over itself. -/
theorem argsPreferred_irrefl (v : CollectedToolCall) : ¬ argsPreferred v v := by
  unfold argsPreferred
  intro ⟨h1, h2⟩
  rcases h2 with h2 | h2
  · exact h1 h2
  · omega

/-- If the held record was not preferred over by `c`, a replacement
preferred over it is not preferred over by `c` either. -/
theorem argsPreferred_not_trans {a b c : CollectedToolCall}
    (hab : argsPreferred a b) (hcb : ¬ argsPreferred c b) : ¬ argsPreferred c a := by
  unfold argsPreferred at *
  intro ⟨hc, hca⟩
  apply hcb
  refine ⟨hc, ?_⟩
  rcases hab with ⟨ha, hb⟩
  rcases hca with hca | hca
  · exact absurd hca ha
  · rcases hb with hb | hb
    · exact Or.inl hb
    · exact Or.inr (by omega)

/-- Map lookup fails exactly on absent keys. -/
theorem jsMapGet_eq_none_iff (m : List (String × CollectedToolCall)) (k : String) :
    jsMapGet m k = none ↔ k ∉ m.map Prod.fst := by
  induction m with
  | nil => simp [jsMapGet]
  | cons e rest ih =>
    rcases e with ⟨k', v'⟩
    by_cases hk : k' = k
    · subst hk
      simp [jsMapGet]
    · simp [jsMapGet, hk, ih, Ne.symm hk]

/-- A successful map lookup is a member entry. -/
theorem jsMapGet_some_mem {m : List (String × CollectedToolCall)} {k : String}
    {v : CollectedToolCall} (h : jsMapGet m k = some v) : (k, v) ∈ m := by
  induction m with
  | nil => simp [jsMapGet] at h
  | cons e rest ih =>
    rcases e with ⟨k', v'⟩
    by_cases hk : k' = k
    · subst hk
      simp [jsMapGet] at h
      simp [h]
    · simp [jsMapGet, hk] at h
      exact List.mem_cons_of_mem _ (ih h)

/-- Setting an absent key appends the entry. -/
theorem jsMapSet_append_of_none {m : List (String × CollectedToolCall)} {k : String}
    (v : CollectedToolCall) (h : jsMapGet m k = none) :
    jsMapSet m k v = m ++ [(k, v)] := by
  induction m with
  | nil => rfl
  | cons e rest ih =>
    rcases e with ⟨k', v'⟩
    by_cases hk : k' = k
    · subst hk
      simp [jsMapGet] at h
    · simp [jsMapGet, hk] at h
      simp [jsMapSet, hk, ih h]

/-- Setting a present key preserves the key list. -/
theorem jsMapSet_keys_of_mem {m : List (String × CollectedToolCall)} {k : String}
    (v : CollectedToolCall) (h : k ∈ m.map Prod.fst) :
    (jsMapSet m k v).map Prod.fst = m.map Prod.fst := by
  induction m with
  | nil => simp at h
  | cons e rest ih =>
    rcases e with ⟨k', v'⟩
    simp only [List.map_cons] at h
    by_cases hk : k' = k
    · subst hk
      simp [jsMapSet]
    · have h' : k ∈ rest.map Prod.fst := by
        rcases List.mem_cons.mp h with h | h
        · exact absurd h.symm hk
        · exact h
      simp [jsMapSet, hk, ih h']

/-- Membership in an updated map, for maps with distinct keys. -/
theorem mem_jsMapSet {m : List (String × CollectedToolCall)} {k : String}
    {v : CollectedToolCall} {e : String × CollectedToolCall}
    (hnd : (m.map Prod.fst).Nodup) (h : e ∈ jsMapSet m k v) :
    e = (k, v) ∨ (e ∈ m ∧ e.1 ≠ k) := by
  induction m with
  | nil =>
    simp [jsMapSet] at h
    exact Or.inl h
  | cons he rest ih =>
    rcases he with ⟨k', v'⟩
    simp only [List.map_cons, List.nodup_cons] at hnd
    by_cases hk : k' = k
    · subst hk
      simp only [jsMapSet, if_pos rfl] at h
      rcases List.mem_cons.mp h with h | h
      · exact Or.inl h
      · refine Or.inr ⟨List.mem_cons_of_mem _ h, ?_⟩
        intro habs
        exact hnd.1 (habs ▸ List.mem_map_of_mem Prod.fst h)
    · simp only [jsMapSet, if_neg hk] at h
      rcases List.mem_cons.mp h with h | h
      · subst h
        exact Or.inr ⟨List.mem_cons_self _ _, hk⟩
      · rcases ih hnd.2 h with h | ⟨hm, hne⟩
        · exact Or.inl h
        · exact Or.inr ⟨List.mem_cons_of_mem _ hm, hne⟩

/-- In a map with distinct keys, an entry at a looked-up key holds the
looked-up value. -/
theorem jsMapGet_entry_unique {m : List (String × CollectedToolCall)} {k : String}
    {w : CollectedToolCall} {e : String × CollectedToolCall}
    (hnd : (m.map Prod.fst).Nodup) (hget : jsMapGet m k = some w)
    (he : e ∈ m) (hk : e.1 = k) : e.2 = w := by
  induction m with
  | nil => simp at he
  | cons hd rest ih =>
    rcases hd with ⟨k', v'⟩
    simp only [List.map_cons, List.nodup_cons] at hnd
    by_cases hkk : k' = k
    · subst hkk
      simp [jsMapGet] at hget
      rcases List.mem_cons.mp he with he | he
      · rw [he]
        exact hget
      · have hmem : e.1 ∈ rest.map Prod.fst := List.mem_map_of_mem Prod.fst he
        rw [hk] at hmem
        exact absurd hmem hnd.1
    · simp [jsMapGet, hkk] at hget
      rcases List.mem_cons.mp he with he | he
      · rw [he] at hk
        exact absurd hk hkk
      · exact ih hnd.2 hget he

/-- First occurrences of a list of ids, in order (the order in which
JavaScript `Map` insertion fixes key positions). -/
def firstOccurAux (seen : List String) : List String → List String
  | [] => []
  | x :: xs =>
    if seen.contains x then firstOccurAux seen xs
    else x :: firstOccurAux (x :: seen) xs

/-- Membership in the first-occurrence list. -/
theorem mem_firstOccurAux (l : List String) : ∀ (seen : List String) (x : String),
    x ∈ firstOccurAux seen l ↔ x ∈ l ∧ x ∉ seen := by
  induction l with
  | nil =>
    intro seen x
    simp [firstOccurAux]
  | cons y ys ih =>
    intro seen x
    simp only [firstOccurAux]
    by_cases hy : y ∈ seen
    · rw [if_pos (by simpa using hy), ih]
      simp only [List.mem_cons]
      constructor
      · rintro ⟨h1, h2⟩
        exact ⟨Or.inr h1, h2⟩
      · rintro ⟨h1 | h1, h2⟩
        · exact absurd (h1 ▸ hy) h2
        · exact ⟨h1, h2⟩
    · rw [if_neg (by simpa using hy)]
      simp only [List.mem_cons, ih]
      constructor
      · rintro (rfl | ⟨h1, h2⟩)
        · exact ⟨Or.inl rfl, hy⟩
        · push_neg at h2
          exact ⟨Or.inr h1, h2.2⟩
      · rintro ⟨h1 | h1, h2⟩
        · exact Or.inl h1
        · by_cases hxy : x = y
          · exact Or.inl hxy
          · exact Or.inr ⟨h1, by simp [hxy, h2]⟩

/-- Appending one id to the scanned list extends the first-occurrence
list exactly when the id is new. -/
theorem firstOccurAux_append (l : List String) : ∀ (seen : List String) (x : String),
    firstOccurAux seen (l ++ [x]) =
      firstOccurAux seen l ++ (if x ∈ seen ∨ x ∈ l then [] else [x]) := by
  induction l with
  | nil =>
    intro seen x
    by_cases hx : x ∈ seen
    · simp only [List.nil_append, firstOccurAux]
      rw [if_pos (by simpa using hx), if_pos (by simp [hx])]
    · simp only [List.nil_append, firstOccurAux]
      rw [if_neg (by simpa using hx), if_neg (by simp [hx])]
  | cons y ys ih =>
    intro seen x
    by_cases hy : y ∈ seen
    · have h1 : firstOccurAux seen ((y :: ys) ++ [x]) = firstOccurAux seen (ys ++ [x]) := by
        simp only [List.cons_append, firstOccurAux]
        rw [if_pos (by simpa using hy)]
        rfl
      have h2 : firstOccurAux seen (y :: ys) = firstOccurAux seen ys := by
        simp only [firstOccurAux]
        rw [if_pos (by simpa using hy)]
      rw [h1, h2, ih]
      congr 1
      by_cases hxy : x = y
      · subst hxy
        simp [hy]
      · simp [hxy]
    · have h1 : firstOccurAux seen ((y :: ys) ++ [x]) =
          y :: firstOccurAux (y :: seen) (ys ++ [x]) := by
        simp only [List.cons_append, firstOccurAux]
        rw [if_neg (by simpa using hy)]
        rfl
      have h2 : firstOccurAux seen (y :: ys) = y :: firstOccurAux (y :: seen) ys := by
        simp only [firstOccurAux]
        rw [if_neg (by simpa using hy)]
      rw [h1, h2, ih]
      simp only [List.cons_append]
      congr 2
      by_cases hxy : x = y
      · subst hxy
        simp
      · by_cases hxs : x ∈ seen
        · simp [hxs, hxy]
        · by_cases hxl : x ∈ ys
          · simp [hxl, hxy, hxs]
          · simp [hxy, hxs, hxl]

/-- The invariant of the first dedup pass over the processed prefix:
distinct keys; every entry keyed by its record's non-empty id with the
record drawn from the prefix; every held record maximal for the
replacement preference among same-id records of the prefix; keys in
first-occurrence order of the non-empty ids; every non-empty id of the
prefix represented. -/
def Pass1Inv (processed : List CollectedToolCall)
    (m : List (String × CollectedToolCall)) : Prop :=
  (m.map Prod.fst).Nodup ∧
  (∀ e ∈ m, e.2.id = e.1 ∧ e.1 ≠ "" ∧ e.2 ∈ processed) ∧
  (∀ e ∈ m, ∀ c ∈ processed, c.id = e.1 → ¬ argsPreferred c e.2) ∧
  (m.map Prod.fst =
    firstOccurAux [] ((processed.filter (fun c => !c.id.isEmpty)).map (fun c => c.id))) ∧
  (∀ c ∈ processed, c.id ≠ "" → ∃ e ∈ m, e.1 = c.id)

/-- Update equation: an empty id is skipped. -/
theorem dedupeUpdate_empty {tc : CollectedToolCall}
    (m : List (String × CollectedToolCall)) (h : tc.id.isEmpty = true) :
    dedupeUpdate m tc = m := by
  unfold dedupeUpdate
  rw [if_pos h]

/-- Update equation: a new non-empty id is inserted. -/
theorem dedupeUpdate_none {tc : CollectedToolCall}
    {m : List (String × CollectedToolCall)} (h : ¬tc.id.isEmpty = true)
    (hget : jsMapGet m tc.id = none) :
    dedupeUpdate m tc = jsMapSet m tc.id tc := by
  unfold dedupeUpdate
  rw [if_neg h, hget]

/-- Update equation: a preferred record replaces the held one. -/
theorem dedupeUpdate_pref {tc existing : CollectedToolCall}
    {m : List (String × CollectedToolCall)} (h : ¬tc.id.isEmpty = true)
    (hget : jsMapGet m tc.id = some existing) (hp : argsPreferred tc existing) :
    dedupeUpdate m tc = jsMapSet m tc.id tc := by
  unfold dedupeUpdate
  rw [if_neg h, hget]
  simp [hp]

/-- Update equation: a non-preferred record is dropped. -/
theorem dedupeUpdate_nopref {tc existing : CollectedToolCall}
    {m : List (String × CollectedToolCall)} (h : ¬tc.id.isEmpty = true)
    (hget : jsMapGet m tc.id = some existing) (hp : ¬ argsPreferred tc existing) :
    dedupeUpdate m tc = m := by
  unfold dedupeUpdate
  rw [if_neg h, hget]
  simp [hp]

/-- One step of the first dedup pass preserves its invariant. -/
theorem pass1Inv_step (processed : List CollectedToolCall)
    (m : List (String × CollectedToolCall)) (tc : CollectedToolCall)
    (h : Pass1Inv processed m) : Pass1Inv (processed ++ [tc]) (dedupeUpdate m tc) := by
  obtain ⟨hnd, hent, hmax, hord, hcov⟩ := h
  by_cases hid : tc.id.isEmpty = true
  · rw [dedupeUpdate_empty m hid]
    have hid' : tc.id = "" := (String.isEmpty_iff tc.id).mp hid
    refine ⟨hnd, ?_, ?_, ?_, ?_⟩
    · intro e he
      obtain ⟨a, b, c⟩ := hent e he
      exact ⟨a, b, List.mem_append_left _ c⟩
    · intro e he c hc hceq
      rcases List.mem_append.mp hc with hc | hc
      · exact hmax e he c hc hceq
      · simp only [List.mem_singleton] at hc
        rw [hc, hid'] at hceq
        obtain ⟨_, hb, _⟩ := hent e he
        exact absurd hceq.symm hb
    · rw [hord]
      congr 1
      rw [List.filter_append]
      simp [hid]
    · intro c hc hne
      rcases List.mem_append.mp hc with hc | hc
      · exact hcov c hc hne
      · simp only [List.mem_singleton] at hc
        rw [hc, hid'] at hne
        exact absurd rfl hne
  · have hidne : tc.id ≠ "" :=
      (isEmpty_eq_false_iff tc.id).mp (by simpa using hid)
    have hfilter : (processed ++ [tc]).filter (fun c => !c.id.isEmpty) =
        processed.filter (fun c => !c.id.isEmpty) ++ [tc] := by
      rw [List.filter_append]
      simp [hid]
    cases hget : jsMapGet m tc.id with
    | none =>
      have hknotin : tc.id ∉ m.map Prod.fst := (jsMapGet_eq_none_iff m tc.id).mp hget
      rw [dedupeUpdate_none hid hget, jsMapSet_append_of_none tc hget]
      have hidsnotin :
          tc.id ∉ (processed.filter (fun c => !c.id.isEmpty)).map (fun c => c.id) := by
        intro habs
        apply hknotin
        rw [hord, mem_firstOccurAux]
        exact ⟨habs, by simp⟩
      refine ⟨?_, ?_, ?_, ?_, ?_⟩
      · rw [List.map_append]
        simp [List.nodup_append, hnd, hknotin]
      · intro e he
        rcases List.mem_append.mp he with he | he
        · obtain ⟨a, b, c⟩ := hent e he
          exact ⟨a, b, List.mem_append_left _ c⟩
        · simp only [List.mem_singleton] at he
          rw [he]
          exact ⟨rfl, hidne, List.mem_append_right _ (by simp)⟩
      · intro e he c hc hceq
        rcases List.mem_append.mp he with he | he
        · rcases List.mem_append.mp hc with hc | hc
          · exact hmax e he c hc hceq
          · simp only [List.mem_singleton] at hc
            rw [hc] at hceq
            have hm2 : e.1 ∈ m.map Prod.fst := List.mem_map_of_mem Prod.fst he
            rw [← hceq] at hm2
            exact absurd hm2 hknotin
        · simp only [List.mem_singleton] at he
          rcases List.mem_append.mp hc with hc | hc
          · rw [he] at hceq
            obtain ⟨e2, he2, hk2⟩ := hcov c hc (by
              intro habs
              rw [habs] at hceq
              exact hidne hceq.symm)
            have hm2 : e2.1 ∈ m.map Prod.fst := List.mem_map_of_mem Prod.fst he2
            rw [hk2, hceq] at hm2
            exact absurd hm2 hknotin
          · simp only [List.mem_singleton] at hc
            rw [he, hc]
            exact argsPreferred_irrefl tc
      · rw [List.map_append, hord, hfilter, List.map_append]
        simp only [List.map_cons, List.map_nil]
        rw [firstOccurAux_append]
        simp [hidsnotin]
      · intro c hc hne
        rcases List.mem_append.mp hc with hc | hc
        · obtain ⟨e, he, hk⟩ := hcov c hc hne
          exact ⟨e, List.mem_append_left _ he, hk⟩
        · simp only [List.mem_singleton] at hc
          rw [hc]
          exact ⟨(tc.id, tc), by simp, rfl⟩
    | some existing =>
      have hkin : tc.id ∈ m.map Prod.fst := by
        by_contra habs
        rw [← jsMapGet_eq_none_iff] at habs
        rw [habs] at hget
        cases hget
      have hexmem : (tc.id, existing) ∈ m := jsMapGet_some_mem hget
      obtain ⟨hexid, _, hexproc⟩ := hent _ hexmem
      have hidsin :
          tc.id ∈ (processed.filter (fun c => !c.id.isEmpty)).map (fun c => c.id) := by
        refine List.mem_map.mpr ⟨existing, ?_, hexid⟩
        rw [List.mem_filter]
        refine ⟨hexproc, ?_⟩
        have hb : existing.id.isEmpty = false := by
          rw [hexid]
          simpa using hid
        simp [hb]
      have hordNew :
          firstOccurAux []
            (((processed ++ [tc]).filter (fun c => !c.id.isEmpty)).map (fun c => c.id)) =
          m.map Prod.fst := by
        rw [hfilter, List.map_append]
        simp only [List.map_cons, List.map_nil]
        rw [firstOccurAux_append]
        simp [hidsin, hord]
      have hcovKeys : ∀ c ∈ processed ++ [tc], c.id ≠ "" →
          c.id ∈ m.map Prod.fst := by
        intro c hc hne
        rcases List.mem_append.mp hc with hc | hc
        · obtain ⟨e, he, hk⟩ := hcov c hc hne
          rw [← hk]
          exact List.mem_map_of_mem Prod.fst he
        · simp only [List.mem_singleton] at hc
          rw [hc]
          exact hkin
      by_cases hpref : argsPreferred tc existing
      · rw [dedupeUpdate_pref hid hget hpref]
        have hkeys : (jsMapSet m tc.id tc).map Prod.fst = m.map Prod.fst :=
          jsMapSet_keys_of_mem tc hkin
        refine ⟨by rw [hkeys]; exact hnd, ?_, ?_, ?_, ?_⟩
        · intro e he
          rcases mem_jsMapSet hnd he with heq | ⟨hm, _⟩
          · rw [heq]
            exact ⟨rfl, hidne, List.mem_append_right _ (by simp)⟩
          · obtain ⟨a, b, c⟩ := hent e hm
            exact ⟨a, b, List.mem_append_left _ c⟩
        · intro e he c hc hceq
          rcases mem_jsMapSet hnd he with heq | ⟨hm, hne⟩
          · rw [heq] at hceq ⊢
            rcases List.mem_append.mp hc with hc | hc
            · have hmx := hmax _ hexmem c hc hceq
              exact argsPreferred_not_trans hpref hmx
            · simp only [List.mem_singleton] at hc
              rw [hc]
              exact argsPreferred_irrefl tc
          · rcases List.mem_append.mp hc with hc | hc
            · exact hmax e hm c hc hceq
            · simp only [List.mem_singleton] at hc
              rw [hc] at hceq
              exact absurd hceq.symm hne
        · rw [hkeys, hordNew]
        · intro c hc hne
          have hm2 : c.id ∈ (jsMapSet m tc.id tc).map Prod.fst := by
            rw [hkeys]
            exact hcovKeys c hc hne
          obtain ⟨e, he, hk⟩ := List.mem_map.mp hm2
          exact ⟨e, he, hk⟩
      · rw [dedupeUpdate_nopref hid hget hpref]
        refine ⟨hnd, ?_, ?_, by rw [hordNew], ?_⟩
        · intro e he
          obtain ⟨a, b, c⟩ := hent e he
          exact ⟨a, b, List.mem_append_left _ c⟩
        · intro e he c hc hceq
          rcases List.mem_append.mp hc with hc | hc
          · exact hmax e he c hc hceq
          · simp only [List.mem_singleton] at hc
            rw [hc] at hceq ⊢
            have hval : e.2 = existing :=
              jsMapGet_entry_unique hnd hget he hceq.symm
            rw [hval]
            exact hpref
        · intro c hc hne
          obtain ⟨e, he, hk⟩ := List.mem_map.mp (hcovKeys c hc hne)
          exact ⟨e, he, hk⟩

/-- The first dedup pass establishes its invariant from any invariant
prefix. -/
theorem pass1Inv_foldl (calls : List CollectedToolCall) :
    ∀ (processed : List CollectedToolCall) (m : List (String × CollectedToolCall)),
      Pass1Inv processed m →
      Pass1Inv (processed ++ calls) (calls.foldl dedupeUpdate m) := by
  induction calls with
  | nil =>
    intro processed m h
    simpa using h
  | cons tc rest ih =>
    intro processed m h
    rw [List.foldl_cons]
    have h2 := ih (processed ++ [tc]) _ (pass1Inv_step processed m tc h)
    simpa [List.append_assoc] using h2

/-- The invariant holds of the finished first pass. -/
theorem pass1Inv_final (calls : List CollectedToolCall) :
    Pass1Inv calls (dedupePass1 calls) := by
  have h := pass1Inv_foldl calls [] []
    ⟨by simp, by simp, by simp, by simp [firstOccurAux], by simp⟩
  simpa [dedupePass1] using h

/-- The second pass selects a subsequence. -/
theorem dedupePass2_sublist (l : List CollectedToolCall) :
    ∀ seen, List.Sublist (dedupePass2 seen l) l := by
  induction l with
  | nil =>
    intro seen
    simp [dedupePass2]
  | cons tc rest ih =>
    intro seen
    simp only [dedupePass2]
    split
    · exact (ih seen).trans (List.sublist_cons_self tc rest)
    · exact List.Sublist.cons₂ tc (ih _)

/-- The keys surviving the second pass are distinct and avoid the seen
set. -/
theorem dedupePass2_keys (l : List CollectedToolCall) :
    ∀ seen, ((dedupePass2 seen l).map dedupeKey).Nodup ∧
      ∀ r ∈ dedupePass2 seen l, dedupeKey r ∉ seen := by
  induction l with
  | nil =>
    intro seen
    simp [dedupePass2]
  | cons tc rest ih =>
    intro seen
    simp only [dedupePass2]
    split
    · exact ih seen
    · next hcon =>
      have hnotin : dedupeKey tc ∉ seen := by simpa using hcon
      obtain ⟨ha, hb⟩ := ih (dedupeKey tc :: seen)
      refine ⟨?_, ?_⟩
      · simp only [List.map_cons, List.nodup_cons]
        refine ⟨?_, ha⟩
        intro habs
        obtain ⟨r, hr, hkey⟩ := List.mem_map.mp habs
        have h2 := hb r hr
        rw [hkey] at h2
        exact h2 (List.mem_cons_self _ _)
      · intro r hr
        rcases List.mem_cons.mp hr with rfl | hr
        · exact hnotin
        · intro habs
          exact hb r hr (List.mem_cons_of_mem _ habs)

/-- Everything the second pass drops repeats a key that was already
kept or seen. -/
theorem dedupePass2_coverage (l : List CollectedToolCall) :
    ∀ seen, ∀ x ∈ l,
      dedupeKey x ∈ seen ∨
        ∃ r ∈ dedupePass2 seen l, dedupeKey r = dedupeKey x := by
  induction l with
  | nil => simp
  | cons tc rest ih =>
    intro seen x hx
    simp only [dedupePass2]
    split
    · next hcon =>
      have hin : dedupeKey tc ∈ seen := by simpa using hcon
      rcases List.mem_cons.mp hx with rfl | hx
      · exact Or.inl hin
      · exact ih seen x hx
    · rcases List.mem_cons.mp hx with rfl | hx
      · exact Or.inr ⟨x, List.mem_cons_self _ _, rfl⟩
      · rcases ih (dedupeKey tc :: seen) x hx with h | ⟨r, hr, hk⟩
        · rcases List.mem_cons.mp h with h | h
          · exact Or.inr ⟨tc, List.mem_cons_self _ _, h.symm⟩
          · exact Or.inl h
        · exact Or.inr ⟨r, List.mem_cons_of_mem _ hr, hk⟩

/-- C4 (amended): the deduplicator drops every call with an empty id;
among the rest it keeps at most one record per id — one that is maximal
for the preference "non-placeholder arguments first, then longer
arguments text" over all same-id input records; across the surviving
one-per-id records it drops any whose name and arguments, joined as
`name + "-" + arguments`, duplicate the joined key of one already kept
(not the (name, arguments) pair itself — see the counterexample); the
output ids appear in order of first occurrence, every non-empty input id
is represented after pass one, and pass two drops a record only when its
joined key is already kept. -/
theorem deduplicateToolCalls_spec (calls : List CollectedToolCall) :
    (∀ r ∈ deduplicateToolCalls calls, r ∈ calls ∧ r.id ≠ "") ∧
    ((deduplicateToolCalls calls).map (fun r => r.id)).Nodup ∧
    (∀ r ∈ deduplicateToolCalls calls, ∀ c ∈ calls,
      c.id = r.id → ¬ argsPreferred c r) ∧
    ((deduplicateToolCalls calls).map dedupeKey).Nodup ∧
    (List.Sublist ((deduplicateToolCalls calls).map (fun r => r.id))
      (firstOccurAux []
        ((calls.filter (fun c => !c.id.isEmpty)).map (fun c => c.id)))) ∧
    (∀ c ∈ calls, c.id ≠ "" → ∃ e ∈ dedupePass1 calls, e.1 = c.id) ∧
    (∀ v ∈ (dedupePass1 calls).map Prod.snd,
      ∃ r ∈ deduplicateToolCalls calls, dedupeKey r = dedupeKey v) := by
  obtain ⟨hnd, hent, hmax, hord, hcov⟩ := pass1Inv_final calls
  have hsub : List.Sublist (deduplicateToolCalls calls)
      ((dedupePass1 calls).map Prod.snd) := dedupePass2_sublist _ []
  have hmemvals : ∀ r ∈ (dedupePass1 calls).map Prod.snd,
      ∃ e ∈ dedupePass1 calls, e.2 = r := by
    intro r hr
    obtain ⟨e, he, hk⟩ := List.mem_map.mp hr
    exact ⟨e, he, hk⟩
  have hvalsid : ((dedupePass1 calls).map Prod.snd).map (fun r => r.id) =
      (dedupePass1 calls).map Prod.fst := by
    rw [List.map_map]
    exact List.map_congr_left (fun e he => (hent e he).1)
  refine ⟨?_, ?_, ?_, (dedupePass2_keys _ []).1, ?_, hcov, ?_⟩
  · intro r hr
    obtain ⟨e, he, hk⟩ := hmemvals r (hsub.subset hr)
    obtain ⟨ha, hb, hc⟩ := hent e he
    rw [← hk]
    refine ⟨hc, ?_⟩
    rw [ha]
    exact hb
  · have h1 : ((dedupePass1 calls).map Prod.snd).map (fun r => r.id) |>.Nodup := by
      rw [hvalsid]
      exact hnd
    exact h1.sublist (hsub.map _)
  · intro r hr c hc hceq
    obtain ⟨e, he, hk⟩ := hmemvals r (hsub.subset hr)
    have hcid : c.id = e.1 := by
      rw [hceq, ← hk, (hent e he).1]
    have hm := hmax e he c hc hcid
    rw [← hk]
    exact hm
  · have h1 : List.Sublist ((deduplicateToolCalls calls).map (fun r => r.id))
        (((dedupePass1 calls).map Prod.snd).map (fun r => r.id)) := hsub.map _
    rw [hvalsid, hord] at h1
    exact h1
  · intro v hv
    rcases dedupePass2_coverage _ [] v hv with h | h
    · simp at h
    · exact h

/-- Refutation of the claim's pair-based second pass: the records
("1", "a", "-1") and ("2", "a-", "1") have distinct non-empty ids and
distinct (name, arguments) pairs, yet their joined name-dash-arguments
keys coincide ("a--1"), so the source drops the second. -/
theorem deduplicateToolCalls_counterexample :
    deduplicateToolCalls [⟨"1", "a", "-1"⟩, ⟨"2", "a-", "1"⟩] =
      [⟨"1", "a", "-1"⟩] ∧
    (("a-", "1") : String × String) ≠ ("a", "-1") := by
  exact ⟨by decide, by decide⟩

/-- Concrete instance of the dedup rules: the record with empty id is
dropped, the kept record comes from the input, and the self-preference
is irreflexive at a concrete record. -/
theorem deduplicateToolCalls_spec_witness :
    ((⟨"1", "x", "\x7b\x7d"⟩ : CollectedToolCall) ∈
        ([⟨"1", "x", "\x7b\x7d"⟩, ⟨"", "y", "\x7b\x7d"⟩] :
          List CollectedToolCall) ∧
      (⟨"1", "x", "\x7b\x7d"⟩ : CollectedToolCall).id ≠ "") ∧
    ¬ argsPreferred ⟨"1", "x", "\x7b\x7d"⟩ ⟨"1", "x", "\x7b\x7d"⟩ := by
  constructor
  · exact (deduplicateToolCalls_spec
      [⟨"1", "x", "\x7b\x7d"⟩, ⟨"", "y", "\x7b\x7d"⟩]).1
      ⟨"1", "x", "\x7b\x7d"⟩ (by decide)
  · exact (deduplicateToolCalls_spec
      [⟨"1", "x", "\x7b\x7d"⟩, ⟨"", "y", "\x7b\x7d"⟩]).2.2.1
      ⟨"1", "x", "\x7b\x7d"⟩ (by decide) ⟨"1", "x", "\x7b\x7d"⟩ (by decide) (by decide)

/-! ## C9: stability of the retained buffer -/

/-- Scan-loop equation: fewer than 12 bytes remain. -/
theorem extractLoop_stop12 (fuel : Nat) (buf : List Nat) (off : Nat)
    (h : ¬(off + 12 ≤ buf.length)) :
    extractLoop (fuel + 1) buf off = ([], off) := by
  conv_lhs => rw [extractLoop]
  rw [if_neg h]

/-- Scan-loop equation: a plausible total length whose frame is not yet
fully buffered stops the scan. -/
theorem extractLoop_incomplete (fuel : Nat) (buf : List Nat) (off : Nat)
    (h12 : off + 12 ≤ buf.length)
    (hv : ¬(asInt32 (be32u buf off) < 16 ∨ asInt32 (be32u buf off) > 1000000))
    (hinc : (off : Int) + asInt32 (be32u buf off) > (buf.length : Int)) :
    extractLoop (fuel + 1) buf off = ([], off) := by
  conv_lhs => rw [extractLoop]
  rw [if_pos h12, if_neg hv, if_pos hinc]

/-- Scan-loop equation: the final offset after consuming a complete
frame. -/
theorem extractLoop_consume_snd (fuel : Nat) (buf : List Nat) (off : Nat)
    (h12 : off + 12 ≤ buf.length)
    (hv : ¬(asInt32 (be32u buf off) < 16 ∨ asInt32 (be32u buf off) > 1000000))
    (hcomp : ¬((off : Int) + asInt32 (be32u buf off) > (buf.length : Int))) :
    (extractLoop (fuel + 1) buf off).2 =
      (extractLoop fuel buf (off + (asInt32 (be32u buf off)).toNat)).2 := by
  conv_lhs => rw [extractLoop]
  rw [if_pos h12, if_neg hv, if_neg hcomp]
  dsimp only
  split
  · split <;> rfl
  · rfl

/-- Scan-loop equation: an implausible total length advances one byte
(stated on the signed reading the source computes). -/
theorem extractLoop_skip (fuel : Nat) (buf : List Nat) (off : Nat)
    (h12 : off + 12 ≤ buf.length)
    (hv : asInt32 (be32u buf off) < 16 ∨ asInt32 (be32u buf off) > 1000000) :
    extractLoop (fuel + 1) buf off = extractLoop fuel buf (off + 1) := by
  conv_lhs => rw [extractLoop]
  rw [if_pos h12, if_pos hv]

/-- Where the scan stops: at the final offset either fewer than 12 bytes
remain, or a plausible total length declares a frame that is not fully
buffered. -/
theorem extractLoop_stop_spec (fuel : Nat) : ∀ (buf : List Nat) (off : Nat),
    buf.length + 1 ≤ fuel + off →
    (buf.length < (extractLoop fuel buf off).2 + 12) ∨
    ((extractLoop fuel buf off).2 + 12 ≤ buf.length ∧
      16 ≤ asInt32 (be32u buf (extractLoop fuel buf off).2) ∧
      asInt32 (be32u buf (extractLoop fuel buf off).2) ≤ 1000000 ∧
      ((buf.length : Int) <
        (extractLoop fuel buf off).2 + asInt32 (be32u buf (extractLoop fuel buf off).2))) := by
  induction fuel with
  | zero =>
    intro buf off h
    left
    simp only [extractLoop]
    omega
  | succ fuel ih =>
    intro buf off h
    by_cases h12 : off + 12 ≤ buf.length
    · by_cases hv : asInt32 (be32u buf off) < 16 ∨ asInt32 (be32u buf off) > 1000000
      · rw [extractLoop_skip fuel buf off h12 hv]
        exact ih buf (off + 1) (by omega)
      · by_cases hinc : (off : Int) + asInt32 (be32u buf off) > (buf.length : Int)
        · rw [extractLoop_incomplete fuel buf off h12 hv hinc]
          right
          push_neg at hv
          exact ⟨h12, hv.1, hv.2, hinc⟩
        · rw [extractLoop_consume_snd fuel buf off h12 hv hinc]
          push_neg at hv
          have htl : 16 ≤ (asInt32 (be32u buf off)).toNat := by omega
          exact ih buf (off + (asInt32 (be32u buf off)).toNat) (by omega)
    · rw [extractLoop_stop12 fuel buf off h12]
      left
      omega

/-- Byte reads in a dropped suffix line up with the original buffer. -/
theorem byteAt_drop (buf : List Nat) (o i : Nat) :
    byteAt (buf.drop o) i = byteAt buf (o + i) := by
  unfold byteAt
  rw [List.getD_eq_getElem?_getD, List.getD_eq_getElem?_getD, List.getElem?_drop]

/-- Big-endian reads in a dropped suffix line up with the original
buffer. -/
theorem be32u_drop (buf : List Nat) (o i : Nat) :
    be32u (buf.drop o) i = be32u buf (o + i) := by
  unfold be32u
  rw [byteAt_drop, byteAt_drop, byteAt_drop, byteAt_drop]
  ring_nf

/-- Finalization does not touch the raw buffer. -/
theorem finalizeToolCall_rawBuffer (s : PState) :
    (finalizeToolCall s).rawBuffer = s.rawBuffer := by
  unfold finalizeToolCall
  cases s.currentToolCall <;> rfl

/-- Dispatch steps do not touch the raw buffer. -/
theorem processEvent_rawBuffer (s : PState) (d : JsonMems) (ty : EventType) :
    (processEvent s d ty).2.rawBuffer = s.rawBuffer := by
  cases ty with
  | content =>
    simp only [processEvent]
    split
    · rfl
    · split <;> rfl
  | tool_start =>
    simp only [processEvent]
    set s1 : PState := if s.currentToolCall.isSome then finalizeToolCall s else s with hs1
    have h1 : s1.rawBuffer = s.rawBuffer := by
      rw [hs1]
      split
      · exact finalizeToolCall_rawBuffer s
      · rfl
    obtain ⟨us, hus⟩ := toolStartId_snd s1 d
    split
    · simp [finalizeToolCall_rawBuffer, hus, h1]
    · simp [hus, h1]
  | tool_input =>
    simp only [processEvent]
    cases s.currentToolCall <;> rfl
  | tool_stop =>
    simp only [processEvent]
    split
    · simp [finalizeToolCall_rawBuffer]
    · rfl
  | usage => rfl
  | context_usage => rfl
  | followup => rfl

/-- Payload processing does not touch the raw buffer. -/
theorem processPayload_rawBuffer (s : PState) (p : String) :
    (processPayload s p).2.rawBuffer = s.rawBuffer := by
  unfold processPayload
  split
  · split
    · apply processEvent_rawBuffer
    · rfl
  · rfl

/-- A payload sequence does not touch the raw buffer. -/
theorem processPayloads_rawBuffer (payloads : List String) (s : PState) :
    (processPayloads s payloads).2.rawBuffer = s.rawBuffer := by
  induction payloads generalizing s with
  | nil => rfl
  | cons p ps ih =>
    rw [processPayloads_cons]
    rw [ih, processPayload_rawBuffer]

/-- Decoder-level stability of the retained buffer. -/
theorem extract_stable_aux (buf : List Nat) :
    extractJsonPayloads (extractJsonPayloads buf).2 =
      ([], (extractJsonPayloads buf).2) := by
  have hstop := extractLoop_stop_spec (buf.length + 1) buf 0 (by omega)
  unfold extractJsonPayloads
  rcases hstop with hA | ⟨h12, hv1, hv2, hinc⟩
  · set o := (extractLoop (buf.length + 1) buf 0).2 with ho
    have hlen : (buf.drop o).length = buf.length - o := List.length_drop o buf
    have hlt : ¬(0 + 12 ≤ (buf.drop o).length) := by omega
    rw [extractLoop_stop12 _ _ _ hlt]
    simp
  · set o := (extractLoop (buf.length + 1) buf 0).2 with ho
    have hlen : (buf.drop o).length = buf.length - o := List.length_drop o buf
    have hbe : be32u (buf.drop o) 0 = be32u buf o := by
      rw [be32u_drop, Nat.add_zero]
    have h12' : 0 + 12 ≤ (buf.drop o).length := by omega
    have hv' : ¬(asInt32 (be32u (buf.drop o) 0) < 16 ∨
        asInt32 (be32u (buf.drop o) 0) > 1000000) := by
      rw [hbe]
      push_neg
      exact ⟨hv1, hv2⟩
    have hinc' : ((0 : Nat) : Int) + asInt32 (be32u (buf.drop o) 0) >
        ((buf.drop o).length : Int) := by
      rw [hbe, hlen]
      have hcast : ((buf.length - o : Nat) : Int) ≤ (buf.length : Int) - o ∨
          ((buf.length - o : Nat) : Int) = (buf.length : Int) - o := by
        omega
      omega
    rw [extractLoop_incomplete _ _ _ h12' hv' hinc']
    simp

/-- C9 (amended): after a decode pass the retained buffer is stable —
re-running the decoder on it extracts no payloads and returns it
unchanged, both at the decoder level and for the raw buffer a feed call
retains.  (The retained bytes may still contain a byte range that would
parse as a complete valid frame at an offset the stopped scan never
reaches; see the counterexample.) -/
theorem extract_remaining_stable (buf : List Nat) (s : PState) (chunk : List Nat) :
    (extractJsonPayloads (extractJsonPayloads buf).2 =
      ([], (extractJsonPayloads buf).2)) ∧
    (extractJsonPayloads (feed s chunk).2.rawBuffer =
      ([], (feed s chunk).2.rawBuffer)) := by
  constructor
  · exact extract_stable_aux buf
  · have hraw : (feed s chunk).2.rawBuffer =
        (extractJsonPayloads (s.rawBuffer ++ chunk)).2 := by
      unfold feed
      rw [processPayloads_rawBuffer]
    rw [hraw]
    exact extract_stable_aux (s.rawBuffer ++ chunk)

/-- The claim's notion "contains a complete, valid frame": at some
offset a 4-byte big-endian total length in `[16, 1_000_000]` declares a
frame whose bytes are all present. -/
def containsCompleteFrame (buf : List Nat) : Prop :=
  ∃ p, 16 ≤ be32u buf p ∧ be32u buf p ≤ 1000000 ∧ p + be32u buf p ≤ buf.length

/-- A 50-byte buffer whose head declares an incomplete 100-byte frame,
while bytes 4..8 declare a complete, valid 16-byte frame. -/
def shadowedFrameBuffer : List Nat :=
  [0, 0, 0, 100, 0, 0, 0, 16] ++ List.replicate 42 0

/-- Refutation of the claim as stated: the decode pass extracts nothing
and retains the whole buffer, yet the retained buffer contains a
complete valid frame (at offset 4, shadowed by the pending incomplete
frame the scan is waiting on). -/
theorem remaining_frame_counterexample :
    extractJsonPayloads shadowedFrameBuffer = ([], shadowedFrameBuffer) ∧
    containsCompleteFrame shadowedFrameBuffer := by
  constructor
  · decide
  · exact ⟨4, by decide, by decide, by decide⟩

/-! ## C1: chunk-boundary invariance fails on a crafted frame -/

/-- A 100-byte frame whose headers-length field holds the bytes
FF FF FF 8F, which the source's `<<`/`|` composition reads as the signed
32-bit value -113: the payload region then starts 101 bytes before the
frame, and `Uint8Array.slice` counts that negative position from the end
of whatever is currently buffered.  Bytes 19..96 of the frame spell the
JSON text `{"content":"hi"}` padded with spaces. -/
def negativeHeadersFrame : List Nat :=
  [0, 0, 0, 100] ++ [255, 255, 255, 143] ++ [0, 0, 0, 0] ++
    List.replicate 7 32 ++
    ("\x7b\"content\":\"hi\"\x7d".data.map Char.toNat) ++
    List.replicate 61 32 ++ [0, 0, 0, 0]

/-- Twenty trailing zero bytes (resynchronized over, no payload). -/
def trailingZeros : List Nat :=
  List.replicate 20 0

set_option maxRecDepth 100000 in
/-- C1 fails on the code: feeding the same 120 bytes in one call emits
the content event "hi" (the clamped back-reaching slice lands on the
in-frame JSON text), while feeding them split at the frame boundary
emits nothing (the same slice, clamped against the shorter buffer,
starts at byte 0 and captures NUL-laden prelude bytes that fail JSON
parsing).  The two fresh coordinators disagree on the emitted event
sequence. -/
theorem chunk_invariance_counterexample :
    (feedAll (initState []) [negativeHeadersFrame ++ trailingZeros]).1 =
      [⟨EventType.content, Json.jstr "hi"⟩] ∧
    (feedAll (initState []) [negativeHeadersFrame, trailingZeros]).1 = [] ∧
    (feedAll (initState []) [negativeHeadersFrame ++ trailingZeros]).1 ≠
      (feedAll (initState []) [negativeHeadersFrame, trailingZeros]).1 := by
  refine ⟨by decide, by decide, by decide⟩

end KiroGateway
